import Mathlib

/-!
# imageRotation: pixel buffers, quarter-turn rotation, arbitrary-angle rotation, batch split

A shallow embedding of the rotation engine and the static batch split of
`v2.cpp`, `v2rec.cpp` and `v3.cpp`.

Conventions of the embedding

* `image_data[row][column]` is a list of rows, each row a list of pixels, each
  pixel the list of its channel bytes (`std::vector<unsigned char>`).
* `width` and `height` of a decoded buffer are the sizes of those vectors, so
  they are natural numbers; signed intermediate values of `v3.cpp` are `Int`.
* `operator[]` outside a vector is undefined in C++; the accessors below return
  a default there, and every theorem about pixel contents assumes a
  well-formed buffer, where no such access happens.
* `int` values are unbounded integers: the conversion of a `double` outside the
  range of `int` is undefined in C++ and has no value to model. `size_t`
  arithmetic of the batch split is reduced modulo `2 ^ 64`.
* `double` values are the rational numbers they denote. The arithmetic of
  `rotate_image_arbitrary` is embedded twice: with every product and sum rounded
  to the nearest `double` as the machine does (`roundDouble`, definitions with
  the prefix `Fp`), and with the formulas evaluated exactly, for comparison.
  `cos_theta` and `sin_theta` are parameters; the values that the C library
  returns at 90 and at 110 degrees are the constants `cos_ninety`, `sin_ninety`,
  `cos_110` and `sin_110`.
* `std::vector` sizes given by an `int` are taken through `Int.toNat`; the two
  sizes computed by `rotate_image_arbitrary` are never negative.
-/

namespace ImageRotation

/-! ## Pixel buffers -/

/-- One pixel, the `std::vector<unsigned char>` of its R, G, B, A channels. -/
abbrev Pixel := List Nat

/-- The nested vector `image_data[row][column]`. -/
abbrev Image := List (List Pixel)

/-- Value of `std::vector<unsigned char>(4)` and of `std::vector<unsigned char>(4, 0)`. -/
def zeroPixel : Pixel := [0, 0, 0, 0]

/-- Value of `vector<...>(rows, vector<...>(cols, vector<unsigned char>(4)))`. -/
def blankImage (rows cols : Nat) : Image :=
  List.replicate rows (List.replicate cols zeroPixel)

/-- Read access `img[r][c]`. -/
def getPixel (img : Image) (r c : Nat) : Pixel :=
  (img.getD r []).getD c zeroPixel

/-- The assignment `img[r][c] = p`. -/
def setPixel (img : Image) (r c : Nat) (p : Pixel) : Image :=
  img.set r ((img.getD r []).set c p)

/-- A buffer of `height` rows with `width` pixels in each row. -/
def WellFormed (img : Image) (width height : Nat) : Prop :=
  img.length = height ∧ ∀ row ∈ img, row.length = width

instance (img : Image) (width height : Nat) : Decidable (WellFormed img width height) := by
  unfold WellFormed
  infer_instance

/-! ## Fixed quarter turn (`v2.cpp`) -/

/-- Embedding of `rotate_image` of `v2.cpp`: the double loop writes
`rotated_image[x][height - 1 - y] = image_data[y][x]`, then `width` and `height`
are swapped. The result is `(rotated_image, width, height)` after the call. -/
def rotate_image (image_data : Image) (width height : Nat) : Image × Nat × Nat :=
  let rotated_image :=
    (List.range height).foldl
      (fun acc y =>
        (List.range width).foldl
          (fun acc x => setPixel acc x (height - 1 - y) (getPixel image_data y x))
          acc)
      (blankImage width height)
  (rotated_image, height, width)

/-- The operation on a whole pixel buffer `(pixels, width, height)`: one call of
`rotate_image` with `width` and `height` passed by reference (the `rotate90` of the
specification). -/
def rotate90 (B : Image × Nat × Nat) : Image × Nat × Nat :=
  rotate_image B.1 B.2.1 B.2.2

/-! ## Arbitrary-angle rotation (`v3.cpp`), formulas evaluated exactly

`cos_theta` and `sin_theta` are the two `double` values computed by `cos` and `sin`; they
are parameters here (every `double` is a rational number). The definitions of this section
evaluate the formulas of `rotate_image_arbitrary` without rounding, over `ℚ`: they give the
values of the code where every intermediate result is a `double`, as at angle 0, and are
the reference that the double arithmetic is compared with. The arithmetic that the code
performs, rounding after every operation, is in the section on double arithmetic below
(prefix `Fp`). The integer locals `cx` and `cy` and the conversion `truncToInt` are common
to both. -/

/-- Value of `static_cast<int>(d)` for a `double` of exact value `q`: the fractional part is
discarded, so the result is rounded toward zero. -/
def truncToInt (q : ℚ) : Int :=
  if 0 ≤ q then ⌊q⌋ else ⌈q⌉

/-- Local `int cx = width / 2`. -/
def cx (width : Nat) : Int := Int.tdiv (width : Int) 2

/-- Local `int cy = height / 2`. -/
def cy (height : Nat) : Int := Int.tdiv (height : Int) 2

/-- Local `new_width = static_cast<int>(std::abs(width * cos_theta) + std::abs(height * sin_theta))`,
products and sum exact. -/
def new_width (width height : Nat) (cos_theta sin_theta : ℚ) : Int :=
  truncToInt (|(width : ℚ) * cos_theta| + |(height : ℚ) * sin_theta|)

/-- Local `new_height = static_cast<int>(std::abs(width * sin_theta) + std::abs(height * cos_theta))`,
products and sum exact. -/
def new_height (width height : Nat) (cos_theta sin_theta : ℚ) : Int :=
  truncToInt (|(width : ℚ) * sin_theta| + |(height : ℚ) * cos_theta|)

/-- Local `int new_cx = new_width / 2`. -/
def new_cx (width height : Nat) (cos_theta sin_theta : ℚ) : Int :=
  Int.tdiv (new_width width height cos_theta sin_theta) 2

/-- Local `int new_cy = new_height / 2`. -/
def new_cy (width height : Nat) (cos_theta sin_theta : ℚ) : Int :=
  Int.tdiv (new_height width height cos_theta sin_theta) 2

/-- Local `double xt = x - new_cx` (an integer value). -/
def xt (width height : Nat) (cos_theta sin_theta : ℚ) (x : Nat) : Int :=
  (x : Int) - new_cx width height cos_theta sin_theta

/-- Local `double yt = y - new_cy` (an integer value). -/
def yt (width height : Nat) (cos_theta sin_theta : ℚ) (y : Nat) : Int :=
  (y : Int) - new_cy width height cos_theta sin_theta

/-- Local `orig_x = static_cast<int>(cos_theta * xt + sin_theta * yt + cx)` for the
destination pixel in column `x`, row `y`, products and sums exact. -/
def orig_x (width height : Nat) (cos_theta sin_theta : ℚ) (x y : Nat) : Int :=
  truncToInt (cos_theta * (xt width height cos_theta sin_theta x : ℚ)
    + sin_theta * (yt width height cos_theta sin_theta y : ℚ) + (cx width : ℚ))

/-- Local `orig_y = static_cast<int>(-sin_theta * xt + cos_theta * yt + cy)` for the
destination pixel in column `x`, row `y`, products and sums exact. -/
def orig_y (width height : Nat) (cos_theta sin_theta : ℚ) (x y : Nat) : Int :=
  truncToInt (-sin_theta * (xt width height cos_theta sin_theta x : ℚ)
    + cos_theta * (yt width height cos_theta sin_theta y : ℚ) + (cy height : ℚ))

/-- The loops of `rotate_image_arbitrary` of `v3.cpp` with the coordinates evaluated
exactly, from the point where `cos_theta` and `sin_theta` are known. The result is
`(rotated_image, width, height)` after the call. -/
def rotate_image_arbitrary (image_data : Image) (width height : Nat)
    (cos_theta sin_theta : ℚ) : Image × Int × Int :=
  let nw := new_width width height cos_theta sin_theta
  let nh := new_height width height cos_theta sin_theta
  let rotated_image :=
    (List.range nh.toNat).foldl
      (fun acc y =>
        (List.range nw.toNat).foldl
          (fun acc x =>
            let ox := orig_x width height cos_theta sin_theta x y
            let oy := orig_y width height cos_theta sin_theta x y
            if 0 ≤ ox ∧ ox < (width : Int) ∧ 0 ≤ oy ∧ oy < (height : Int) then
              setPixel acc y x (getPixel image_data oy.toNat ox.toNat)
            else acc)
          acc)
      (blankImage nh.toNat nw.toNat)
  (rotated_image, nw, nh)

/-! ## Static split of the file list (`main`) -/

/-- Number of values of `size_t`. -/
def sizeMod : Nat := 2 ^ 64

/-- Local `size_t imagesPerThread = numImages / numThreads`. -/
def imagesPerThread (numImages numThreads : Nat) : Nat :=
  numImages / numThreads

/-- Local `size_t startIdx = i * imagesPerThread` of worker `i`. -/
def startIdx (numImages numThreads i : Nat) : Nat :=
  (i * imagesPerThread numImages numThreads) % sizeMod

/-- Local `size_t endIdx = (i == numThreads - 1) ? numImages : (i + 1) * imagesPerThread`
of worker `i`; `numThreads` is at least one, as the loop runs for `i < numThreads`. -/
def endIdx (numImages numThreads i : Nat) : Nat :=
  if i = numThreads - 1 then numImages
  else ((i + 1) * imagesPerThread numImages numThreads) % sizeMod

/-- Indices visited by the loop `for (size_t j = startIdx; j < endIdx; ++j)` of worker `i`. -/
def workerSlice (numImages numThreads i : Nat) : List Nat :=
  List.range' (startIdx numImages numThreads i)
    (endIdx numImages numThreads i - startIdx numImages numThreads i)

/-! ## File pipeline and error paths (`read_png_file`, `write_png_file`, `process_image`, `main`) -/

/-- How a call ends: it returns, it throws an exception derived from `std::exception`, or it
ends the process through `exit(status)`. -/
inductive Outcome (α : Type) where
  | returned (a : α)
  | thrown
  | exited (status : Nat)
  deriving DecidableEq

/-- What the operating system, libpng and the allocator do while one file is processed;
`true` means that the call succeeds. These calls are outside the program. -/
structure FileCalls where
  /-- Result of `fopen(filename, "rb")` is not null. -/
  fopen_rb : Bool
  /-- Result of `png_create_read_struct` is not null. -/
  create_read_struct : Bool
  /-- Result of `png_create_info_struct` in `read_png_file` is not null. -/
  create_read_info : Bool
  /-- No libpng error (`longjmp`) from `png_init_io` to `png_read_update_info`. -/
  read_header : Bool
  /-- Construction of `row_pointers(height)` in `read_png_file` does not throw. -/
  read_row_vector : Bool
  /-- Every `malloc` of a row in `read_png_file` is not null. -/
  read_row_malloc : Bool
  /-- No libpng error (`longjmp`) in `png_read_image`. -/
  read_image : Bool
  /-- The call `image_data.resize` does not throw `std::bad_alloc`. -/
  resize_image_data : Bool
  /-- The decoded pixels with their width and height. -/
  decoded : Image × Nat × Nat
  /-- Construction of `rotated_image` does not throw `std::bad_alloc`. -/
  alloc_rotated : Bool
  /-- Result of `fopen(filename, "wb")` is not null. -/
  fopen_wb : Bool
  /-- Result of `png_create_write_struct` is not null. -/
  create_write_struct : Bool
  /-- Result of `png_create_info_struct` in `write_png_file` is not null. -/
  create_write_info : Bool
  /-- No libpng error (`longjmp`) in `png_init_io`, `png_set_IHDR`, `png_write_info`. -/
  write_header : Bool
  /-- Construction of `row_pointers(height)` in `write_png_file` does not throw. -/
  write_row_vector : Bool
  /-- Every `malloc` of a row in `write_png_file` is not null. -/
  write_row_malloc : Bool
  /-- No libpng error (`longjmp`) in `png_write_image`. -/
  write_image : Bool
  /-- No libpng error (`longjmp`) in `png_write_end`. -/
  write_end : Bool

/-- Control flow of `read_png_file` of `v2.cpp`: every failure that the function detects
itself ends in `exit(1)`; only an allocation inside a `std::vector` can throw. -/
def read_png_file (f : FileCalls) : Outcome (Image × Nat × Nat) :=
  if !f.fopen_rb then .exited 1
  else if !f.create_read_struct then .exited 1
  else if !f.create_read_info then .exited 1
  else if !f.read_header then .exited 1
  else if !f.read_row_vector then .thrown
  else if !f.read_row_malloc then .exited 1
  else if !f.read_image then .exited 1
  else if !f.resize_image_data then .thrown
  else .returned f.decoded

/-- Control flow of `write_png_file` of `v2.cpp`. -/
def write_png_file (f : FileCalls) (_image_data : Image) (_width _height : Nat) : Outcome Unit :=
  if !f.fopen_wb then .exited 1
  else if !f.create_write_struct then .exited 1
  else if !f.create_write_info then .exited 1
  else if !f.write_header then .exited 1
  else if !f.write_row_vector then .thrown
  else if !f.write_row_malloc then .exited 1
  else if !f.write_image then .exited 1
  else if !f.write_end then .exited 1
  else .returned ()

/-- The body of the `try` block of `process_image`. -/
def process_image_try (f : FileCalls) : Outcome Unit :=
  match read_png_file f with
  | .exited s => .exited s
  | .thrown => .thrown
  | .returned (image_data, width, height) =>
    if !f.alloc_rotated then .thrown
    else
      let r := rotate_image image_data width height
      write_png_file f r.1 r.2.1 r.2.2

/-- Embedding of `process_image` of `v2.cpp`: `catch (const std::exception&)` logs and
lets the function return; a call of `exit` inside the `try` block is not an exception. -/
def process_image (f : FileCalls) : Outcome Unit :=
  match process_image_try f with
  | .thrown => .returned ()
  | o => o

/-- Progress of the process: the indices `j` for which `process_image(image_paths[j])` has
returned, and the exit status once `exit` has been called. -/
structure Run where
  processed : List Nat
  exit_status : Option Nat
  deriving DecidableEq

/-- One iteration `process_image(image_paths[j])` of a worker loop. Once `exit` has been
called, nothing more runs. An exception leaving the thread function would end the process
through `std::terminate` (reported here as status 134). -/
def runFile (image_paths : List FileCalls) (st : Run) (j : Nat) : Run :=
  match st.exit_status with
  | some _ => st
  | none =>
    match image_paths[j]? with
    | none => st
    | some f =>
      match process_image f with
      | .returned _ => { st with processed := st.processed ++ [j] }
      | .exited s => { st with exit_status := some s }
      | .thrown => { st with exit_status := some 134 }

/-- The body of worker `i`: its slice in index order. -/
def runWorker (image_paths : List FileCalls) (numThreads : Nat) (st : Run) (i : Nat) : Run :=
  (workerSlice image_paths.length numThreads i).foldl (runFile image_paths) st

/-- Embedding of `main` of `v2.cpp` from the point where `image_paths` is known, with the
workers run one after the other in worker order (workers share no data, so the set of
processed files of a run without `exit` and the exit status do not depend on the
interleaving). The result is the progress made and the exit status of the process:
`return 0` when no call of `exit` happened. -/
def main (image_paths : List FileCalls) (numThreads : Nat) : Run × Nat :=
  let st := (List.range numThreads).foldl (runWorker image_paths numThreads) ⟨[], none⟩
  (st, st.exit_status.getD 0)

/-! ## Sample inputs -/

/-- A 4×2 image (two rows of four pixels) with pairwise distinct pixels: the pixel in
row `r`, column `c` is `[r, c, 7, 255]`. -/
def image4x2 : Image :=
  [[[0, 0, 7, 255], [0, 1, 7, 255], [0, 2, 7, 255], [0, 3, 7, 255]],
   [[1, 0, 7, 255], [1, 1, 7, 255], [1, 2, 7, 255], [1, 3, 7, 255]]]

/-- A 4×4 image with pairwise distinct pixels: the pixel in row `r`, column `c` is
`[r, c, 9, 255]`. -/
def image4x4 : Image :=
  [[[0, 0, 9, 255], [0, 1, 9, 255], [0, 2, 9, 255], [0, 3, 9, 255]],
   [[1, 0, 9, 255], [1, 1, 9, 255], [1, 2, 9, 255], [1, 3, 9, 255]],
   [[2, 0, 9, 255], [2, 1, 9, 255], [2, 2, 9, 255], [2, 3, 9, 255]],
   [[3, 0, 9, 255], [3, 1, 9, 255], [3, 2, 9, 255], [3, 3, 9, 255]]]

/-- A file for which every library call succeeds; it decodes to the 4×2 sample. -/
def readableFile : FileCalls :=
  { fopen_rb := true, create_read_struct := true, create_read_info := true,
    read_header := true, read_row_vector := true, read_row_malloc := true,
    read_image := true, resize_image_data := true, decoded := (image4x2, 4, 2),
    alloc_rotated := true, fopen_wb := true, create_write_struct := true,
    create_write_info := true, write_header := true, write_row_vector := true,
    write_row_malloc := true, write_image := true, write_end := true }

/-- A file that cannot be opened for reading. -/
def unopenableFile : FileCalls :=
  { readableFile with fopen_rb := false }

/-- A file whose decoded pixels cannot be allocated: `image_data.resize` throws. -/
def oversizedFile : FileCalls :=
  { readableFile with resize_image_data := false }

/-! ## Assignments made by `rotate_image` -/

/-- The assignments `rotated_image[x][height - 1 - y] = image_data[y][x]` made by the double
loop of `rotate_image`, in execution order, each as
`(row index x, column index height - 1 - y, value image_data[y][x])`. -/
def rotate_image_assignments (image_data : Image) (width height : Nat) :
    List (Nat × Nat × Pixel) :=
  (List.range height).flatMap
    (fun y => (List.range width).map
      (fun x => (x, height - 1 - y, getPixel image_data y x)))

/-- The destination coordinate `(column, row)` that the loop body of `rotate_image` assigns
for the source pixel in column `x`, row `y`: `rotated_image[x][height - 1 - y]`. -/
def destination (height x y : Nat) : Nat × Nat :=
  (height - 1 - y, x)

/-! ## Recursive quarter turn (`v2rec.cpp`) -/

/-- Embedding of `rotateImageRecursive` of `v2rec.cpp`. The reference parameter
`rotated_image` is passed through and returned. `fuel` bounds the depth of the recursion:
the result is `none` when the recursion is deeper than `fuel` calls. -/
def rotateImageRecursive : Nat → Image → Image → Nat → Nat → Nat → Nat → Option Image
  | 0, _, _, _, _, _, _ => none
  | fuel + 1, image_data, rotated_image, i, j, rows, cols =>
    if i = rows then some rotated_image
    else if j < cols then
      rotateImageRecursive fuel image_data
        (setPixel rotated_image j (rows - 1 - i) (getPixel image_data i j)) i (j + 1) rows cols
    else
      rotateImageRecursive fuel image_data rotated_image (i + 1) 0 rows cols

/-- Embedding of `rotate_image` of `v2rec.cpp`: the recursion is started at `(0, 0)` with
`rows = height` and `cols = width`, then `width` and `height` are swapped. The result is
`(rotated_image, width, height)` after the call, when the recursion stays within `fuel`. -/
def V2Rec.rotate_image (fuel : Nat) (image_data : Image) (width height : Nat) :
    Option (Image × Nat × Nat) :=
  match rotateImageRecursive fuel image_data (blankImage width height) 0 0 height width with
  | none => none
  | some rotated_image => some (rotated_image, height, width)

/-! ## Double arithmetic (`v3.cpp`)

The operations `*` and `+` on `double` round their exact result to the nearest `double`,
ties to the even significand (IEEE 754 binary64, the default rounding mode), each operation
on its own: a product and the sum that follows are not fused. Values are kept as the
rational numbers they denote; results beyond the largest `double` do not occur in the
computations below and are not modelled. -/

/-- Exponent `e` of the binade `2 ^ e ≤ |q| < 2 ^ (e + 1)` that holds `q`, not below the
exponent `-1022` of the subnormal numbers. -/
def binade (q : ℚ) : Int :=
  max (Int.log 2 |q|) (-1022)

/-- Spacing of the `double` values in the binade of `q`: 52 fraction bits. -/
def ulp (q : ℚ) : ℚ :=
  (2 : ℚ) ^ (binade q - 52)

/-- Nearest integer, a tie going to the even one. -/
def roundHalfEven (x : ℚ) : Int :=
  if x - (⌊x⌋ : ℚ) < 1 / 2 then ⌊x⌋
  else if 1 / 2 < x - (⌊x⌋ : ℚ) then ⌊x⌋ + 1
  else if ⌊x⌋ % 2 = 0 then ⌊x⌋
  else ⌊x⌋ + 1

/-- The `double` nearest to the exact value `q`, ties to even: the result of a `double`
operation whose exact result is `q`. -/
def roundDouble (q : ℚ) : ℚ :=
  (roundHalfEven (q / ulp q) : ℚ) * ulp q

/-- The values of type `double`, as rational numbers: a significand below `2 ^ 53` and an
exponent not below `-1074`. -/
def IsDouble (q : ℚ) : Prop :=
  ∃ m k : Int, |m| < 2 ^ 53 ∧ -1074 ≤ k ∧ q = (m : ℚ) * (2 : ℚ) ^ k

/-! ## Arbitrary-angle rotation in double arithmetic (`v3.cpp`)

The definitions with the prefix `Fp` follow `rotate_image_arbitrary` operation by operation:
every product and every sum of `double` values is rounded by `roundDouble`; the conversions
`int` to `double`, `std::abs` and the unary minus are exact. `cos_theta` and `sin_theta` are
the `double` values that `cos` and `sin` of the C library return. -/

/-- Local `new_width = static_cast<int>(std::abs(width * cos_theta) + std::abs(height * sin_theta))`
in double arithmetic. -/
def Fp.new_width (width height : Nat) (cos_theta sin_theta : ℚ) : Int :=
  truncToInt (roundDouble (|roundDouble ((width : ℚ) * cos_theta)|
    + |roundDouble ((height : ℚ) * sin_theta)|))

/-- Local `new_height = static_cast<int>(std::abs(width * sin_theta) + std::abs(height * cos_theta))`
in double arithmetic. -/
def Fp.new_height (width height : Nat) (cos_theta sin_theta : ℚ) : Int :=
  truncToInt (roundDouble (|roundDouble ((width : ℚ) * sin_theta)|
    + |roundDouble ((height : ℚ) * cos_theta)|))

/-- Local `int new_cx = new_width / 2`. -/
def Fp.new_cx (width height : Nat) (cos_theta sin_theta : ℚ) : Int :=
  Int.tdiv (Fp.new_width width height cos_theta sin_theta) 2

/-- Local `int new_cy = new_height / 2`. -/
def Fp.new_cy (width height : Nat) (cos_theta sin_theta : ℚ) : Int :=
  Int.tdiv (Fp.new_height width height cos_theta sin_theta) 2

/-- Local `double xt = x - new_cx` (an integer value, converted exactly). -/
def Fp.xt (width height : Nat) (cos_theta sin_theta : ℚ) (x : Nat) : Int :=
  (x : Int) - Fp.new_cx width height cos_theta sin_theta

/-- Local `double yt = y - new_cy` (an integer value, converted exactly). -/
def Fp.yt (width height : Nat) (cos_theta sin_theta : ℚ) (y : Nat) : Int :=
  (y : Int) - Fp.new_cy width height cos_theta sin_theta

/-- Local `orig_x = static_cast<int>(cos_theta * xt + sin_theta * yt + cx)` in double
arithmetic: two rounded products, their rounded sum, and the rounded sum with `cx`. -/
def Fp.orig_x (width height : Nat) (cos_theta sin_theta : ℚ) (x y : Nat) : Int :=
  truncToInt (roundDouble
    (roundDouble
      (roundDouble (cos_theta * (Fp.xt width height cos_theta sin_theta x : ℚ))
        + roundDouble (sin_theta * (Fp.yt width height cos_theta sin_theta y : ℚ)))
      + (cx width : ℚ)))

/-- Local `orig_y = static_cast<int>(-sin_theta * xt + cos_theta * yt + cy)` in double
arithmetic. -/
def Fp.orig_y (width height : Nat) (cos_theta sin_theta : ℚ) (x y : Nat) : Int :=
  truncToInt (roundDouble
    (roundDouble
      (roundDouble (-sin_theta * (Fp.xt width height cos_theta sin_theta x : ℚ))
        + roundDouble (cos_theta * (Fp.yt width height cos_theta sin_theta y : ℚ)))
      + (cy height : ℚ)))

/-- Embedding of `rotate_image_arbitrary` of `v3.cpp` in double arithmetic, from the point
where `cos_theta` and `sin_theta` are known. The result is `(rotated_image, width, height)`
after the call. -/
def Fp.rotate_image_arbitrary (image_data : Image) (width height : Nat)
    (cos_theta sin_theta : ℚ) : Image × Int × Int :=
  let nw := Fp.new_width width height cos_theta sin_theta
  let nh := Fp.new_height width height cos_theta sin_theta
  let rotated_image :=
    (List.range nh.toNat).foldl
      (fun acc y =>
        (List.range nw.toNat).foldl
          (fun acc x =>
            let ox := Fp.orig_x width height cos_theta sin_theta x y
            let oy := Fp.orig_y width height cos_theta sin_theta x y
            if 0 ≤ ox ∧ ox < (width : Int) ∧ 0 ≤ oy ∧ oy < (height : Int) then
              setPixel acc y x (getPixel image_data oy.toNat ox.toNat)
            else acc)
          acc)
      (blankImage nh.toNat nw.toNat)
  (rotated_image, nw, nh)

/-- The `double` that `cos` returns for `angle_rad = 90.0 * M_PI / 180.0`, the `double`
nearest to π/2: `6.123233995736766e-17`, hexadecimal `0x1.1a62633145c07p-54`. -/
def cos_ninety : ℚ := 4967757600021511 / 2 ^ 106

/-- The `double` that `sin` returns for `angle_rad = 90.0 * M_PI / 180.0`: `1.0`. -/
def sin_ninety : ℚ := 1

/-- The `double` nearest to `0.6`: hexadecimal `0x1.3333333333333p-1`. -/
def double_0_6 : ℚ := 5404319552844595 / 2 ^ 53

/-- The `double` nearest to `0.8`: hexadecimal `0x1.999999999999ap-1`. -/
def double_0_8 : ℚ := 3602879701896397 / 2 ^ 52

/-- The `double` that `cos` returns for `angle_rad = 110.0 * M_PI / 180.0`, the angle of the
call in `process_image`: `-0.3420201433256687`, hexadecimal `-0x1.5e3a8748a0bf5p-2`. -/
def cos_110 : ℚ := -(6161287160138741 / 2 ^ 54)

/-- The `double` that `sin` returns for `angle_rad = 110.0 * M_PI / 180.0`:
`0.9396926207859084`, hexadecimal `0x1.e11f642522d1cp-1`. -/
def sin_110 : ℚ := 2115999668407111 / 2 ^ 51

/-! ## Basic facts about buffers -/

theorem wellFormed_blankImage (rows cols : Nat) : WellFormed (blankImage rows cols) cols rows := by
  refine ⟨by simp [blankImage], ?_⟩
  intro row hrow
  rw [blankImage, List.mem_replicate] at hrow
  rw [hrow.2, List.length_replicate]

theorem getPixel_blankImage (rows cols r c : Nat) : getPixel (blankImage rows cols) r c = zeroPixel := by
  unfold getPixel blankImage
  by_cases hr : r < rows
  · by_cases hc : c < cols
    · simp [List.getElem?_replicate, hr, hc]
    · simp [List.getElem?_replicate, hr, hc]
  · simp [List.getElem?_replicate, hr]

theorem wellFormed_setPixel {img : Image} {w h : Nat} (hwf : WellFormed img w h)
    (r c : Nat) (p : Pixel) : WellFormed (setPixel img r c p) w h := by
  obtain ⟨hlen, hrows⟩ := hwf
  refine ⟨by simp [setPixel, hlen], ?_⟩
  intro row hrow
  unfold setPixel at hrow
  by_cases hr : r < img.length
  · rcases List.mem_or_eq_of_mem_set hrow with hmem | heq
    · exact hrows row hmem
    · subst heq
      rw [List.length_set]
      have hget : img.getD r [] = img[r] := by simp [hr]
      rw [hget]
      exact hrows _ (List.getElem_mem hr)
  · rw [List.set_eq_of_length_le (by omega)] at hrow
    exact hrows row hrow

theorem getPixel_setPixel {img : Image} {w h : Nat} (hwf : WellFormed img w h)
    {r c : Nat} (hr : r < h) (hc : c < w) (p : Pixel) (r' c' : Nat) :
    getPixel (setPixel img r c p) r' c' =
      if r' = r ∧ c' = c then p else getPixel img r' c' := by
  obtain ⟨hlen, hrows⟩ := hwf
  have hr0 : r < img.length := by omega
  have hrow : (img[r]).length = w := hrows _ (List.getElem_mem hr0)
  unfold getPixel setPixel
  by_cases h1 : r' = r
  · subst h1
    by_cases h2 : c' = c
    · subst h2
      simp [hr0, hrow, hc]
    · have h2' : c ≠ c' := fun e => h2 e.symm
      simp [hr0, h2, h2']
  · have h1' : r ≠ r' := fun e => h1 e.symm
    simp [h1, h1']

theorem image_ext {a b : Image} {w h : Nat} (ha : WellFormed a w h) (hb : WellFormed b w h)
    (hpx : ∀ r c, r < h → c < w → getPixel a r c = getPixel b r c) : a = b := by
  obtain ⟨hla, hra⟩ := ha
  obtain ⟨hlb, hrb⟩ := hb
  apply List.ext_getElem (by omega)
  intro r h1 h2
  have hwa : (a[r]).length = w := hra _ (List.getElem_mem h1)
  have hwb : (b[r]).length = w := hrb _ (List.getElem_mem h2)
  apply List.ext_getElem (by omega)
  intro c h3 h4
  have := hpx r c (by omega) (by omega)
  simpa [getPixel, h1, h2, h3, h4] using this

/-! ## The double loop of `rotate_image` -/

/-- Inner loop of `rotate_image` for a fixed source row `y`, after `k` columns. -/
theorem rotate_inner_loop (image_data : Image) (width height y : Nat) (hy : y < height)
    (acc : Image) (hacc : WellFormed acc height width) (k : Nat) (hk : k ≤ width) :
    WellFormed ((List.range k).foldl
        (fun acc x => setPixel acc x (height - 1 - y) (getPixel image_data y x)) acc) height width ∧
    ∀ r c, getPixel ((List.range k).foldl
        (fun acc x => setPixel acc x (height - 1 - y) (getPixel image_data y x)) acc) r c =
      if r < k ∧ c = height - 1 - y then getPixel image_data y r else getPixel acc r c := by
  induction k with
  | zero => simp [hacc]
  | succ k ih =>
    obtain ⟨ihwf, ihpx⟩ := ih (by omega)
    rw [List.range_succ, List.foldl_append]
    simp only [List.foldl_cons, List.foldl_nil]
    refine ⟨wellFormed_setPixel ihwf _ _ _, ?_⟩
    intro r c
    rw [getPixel_setPixel ihwf (by omega) (by omega), ihpx]
    by_cases h1 : r = k
    · subst h1
      by_cases h2 : c = height - 1 - y
      · simp [h2]
      · simp [h2]
    · by_cases h2 : c = height - 1 - y
      · have h3 : (r < k + 1) = (r < k) := by
          apply propext
          constructor <;> intro h <;> omega
        simp [h1, h2, h3]
      · simp [h1, h2]

/-- Outer loop of `rotate_image` after `k` source rows. -/
theorem rotate_outer_loop (image_data : Image) (width height k : Nat) (hk : k ≤ height) :
    WellFormed ((List.range k).foldl
        (fun acc y => (List.range width).foldl
          (fun acc x => setPixel acc x (height - 1 - y) (getPixel image_data y x)) acc)
        (blankImage width height)) height width ∧
    ∀ r c, r < width → c < height →
      getPixel ((List.range k).foldl
        (fun acc y => (List.range width).foldl
          (fun acc x => setPixel acc x (height - 1 - y) (getPixel image_data y x)) acc)
        (blankImage width height)) r c =
      if height - 1 - c < k then getPixel image_data (height - 1 - c) r else zeroPixel := by
  induction k with
  | zero =>
    refine ⟨by simpa using wellFormed_blankImage width height, ?_⟩
    intro r c _ _
    simp [getPixel_blankImage]
  | succ k ih =>
    obtain ⟨ihwf, ihpx⟩ := ih (by omega)
    rw [List.range_succ, List.foldl_append]
    simp only [List.foldl_cons, List.foldl_nil]
    obtain ⟨hwf, hpx⟩ := rotate_inner_loop image_data width height k (by omega) _ ihwf width
      (Nat.le_refl _)
    refine ⟨hwf, ?_⟩
    intro r c hr hc
    rw [hpx, ihpx r c hr hc]
    by_cases h1 : c = height - 1 - k
    · subst h1
      have h2 : height - 1 - (height - 1 - k) = k := by omega
      simp [hr, h2]
    · have h2 : ¬ (height - 1 - c = k) := by omega
      have h3 : (height - 1 - c < k + 1) = (height - 1 - c < k) := by
        apply propext
        constructor <;> intro h <;> omega
      simp [h1, h3]

/-- The rotated buffer has `width` rows of `height` pixels. -/
theorem rotate_image_wellFormed (image_data : Image) (width height : Nat) :
    WellFormed (rotate_image image_data width height).1 height width :=
  (rotate_outer_loop image_data width height height (Nat.le_refl _)).1

/-- Content of the rotated buffer, read at destination row `r`, column `c`. -/
theorem rotate_image_getPixel (image_data : Image) (width height r c : Nat)
    (hr : r < width) (hc : c < height) :
    getPixel (rotate_image image_data width height).1 r c =
      getPixel image_data (height - 1 - c) r := by
  have h := (rotate_outer_loop image_data width height height (Nat.le_refl _)).2 r c hr hc
  have h2 : height - 1 - c < height := by omega
  simpa [rotate_image, h2] using h

/-! ## Truncation toward zero -/

theorem truncToInt_intCast (n : Int) : truncToInt (n : ℚ) = n := by
  unfold truncToInt
  split <;> simp

theorem truncToInt_natCast (n : Nat) : truncToInt (n : ℚ) = (n : Int) := by
  have h := truncToInt_intCast (n : Int)
  simpa using h

theorem truncToInt_of_nonneg {q : ℚ} {n : Int} (h0 : 0 ≤ q) (h1 : (n : ℚ) ≤ q)
    (h2 : q < (n : ℚ) + 1) : truncToInt q = n := by
  unfold truncToInt
  rw [if_pos h0]
  exact Int.floor_eq_iff.mpr ⟨h1, h2⟩

theorem truncToInt_of_neg {q : ℚ} {n : Int} (h0 : q < 0) (h1 : (n : ℚ) - 1 < q)
    (h2 : q ≤ (n : ℚ)) : truncToInt q = n := by
  unfold truncToInt
  rw [if_neg (not_le.mpr h0)]
  exact Int.ceil_eq_iff.mpr ⟨h1, h2⟩

theorem truncToInt_nonneg {q : ℚ} (h0 : 0 ≤ q) : 0 ≤ truncToInt q := by
  unfold truncToInt
  rw [if_pos h0]
  exact Int.floor_nonneg.mpr h0

theorem tdiv_two_natCast (w : Nat) : Int.tdiv (w : Int) 2 = ((w / 2 : Nat) : Int) := by
  rw [Int.tdiv_eq_ediv (by omega) (by omega)]
  simp

/-! ## The sampling loops of `rotate_image_arbitrary` -/

/-- Inner loop of a sampling pass over destination row `y`, after `k` columns: the pixel
`(y, x)` is written when the test `P x y` holds and keeps its value otherwise. -/
theorem sample_inner_loop (P : Nat → Nat → Prop) [∀ x y, Decidable (P x y)]
    (v : Nat → Nat → Pixel) (rows cols y : Nat) (hy : y < rows)
    (acc : Image) (hacc : WellFormed acc cols rows) (k : Nat) (hk : k ≤ cols) :
    WellFormed ((List.range k).foldl
        (fun acc x => if P x y then setPixel acc y x (v x y) else acc) acc) cols rows ∧
    ∀ r c, getPixel ((List.range k).foldl
        (fun acc x => if P x y then setPixel acc y x (v x y) else acc) acc) r c =
      if r = y ∧ c < k ∧ P c y then v c y else getPixel acc r c := by
  induction k with
  | zero => simp [hacc]
  | succ k ih =>
    obtain ⟨ihwf, ihpx⟩ := ih (by omega)
    rw [List.range_succ, List.foldl_append]
    simp only [List.foldl_cons, List.foldl_nil]
    by_cases hP : P k y
    · rw [if_pos hP]
      refine ⟨wellFormed_setPixel ihwf _ _ _, ?_⟩
      intro r c
      rw [getPixel_setPixel ihwf hy (by omega), ihpx]
      by_cases h1 : r = y
      · by_cases h2 : c = k
        · subst h2
          simp [h1, hP]
        · have h3 : (c < k + 1) = (c < k) := by
            apply propext
            constructor <;> intro h <;> omega
          simp [h1, h2, h3]
      · simp [h1]
    · rw [if_neg hP]
      refine ⟨ihwf, ?_⟩
      intro r c
      rw [ihpx]
      by_cases h2 : c = k
      · subst h2
        simp [hP]
      · have h3 : (c < k + 1) = (c < k) := by
          apply propext
          constructor <;> intro h <;> omega
        simp [h3]

/-- Outer loop of a sampling pass after `k` destination rows. -/
theorem sample_outer_loop (P : Nat → Nat → Prop) [∀ x y, Decidable (P x y)]
    (v : Nat → Nat → Pixel) (rows cols k : Nat) (hk : k ≤ rows) :
    WellFormed ((List.range k).foldl
        (fun acc y => (List.range cols).foldl
          (fun acc x => if P x y then setPixel acc y x (v x y) else acc) acc)
        (blankImage rows cols)) cols rows ∧
    ∀ r c, r < rows → c < cols →
      getPixel ((List.range k).foldl
        (fun acc y => (List.range cols).foldl
          (fun acc x => if P x y then setPixel acc y x (v x y) else acc) acc)
        (blankImage rows cols)) r c =
      if r < k ∧ P c r then v c r else zeroPixel := by
  induction k with
  | zero =>
    refine ⟨by simpa using wellFormed_blankImage rows cols, ?_⟩
    intro r c _ _
    simp [getPixel_blankImage]
  | succ k ih =>
    obtain ⟨ihwf, ihpx⟩ := ih (by omega)
    rw [List.range_succ, List.foldl_append]
    simp only [List.foldl_cons, List.foldl_nil]
    obtain ⟨hwf, hpx⟩ := sample_inner_loop P v rows cols k (by omega) _ ihwf cols (Nat.le_refl _)
    refine ⟨hwf, ?_⟩
    intro r c hr hc
    rw [hpx, ihpx r c hr hc]
    by_cases h1 : r = k
    · subst h1
      simp [hc]
    · have h3 : (r < k + 1) = (r < k) := by
        apply propext
        constructor <;> intro h <;> omega
      simp [h1, h3]

/-- The buffer returned by `rotate_image_arbitrary` has `new_height` rows of `new_width`
pixels. -/
theorem rotate_image_arbitrary_wellFormed (image_data : Image) (width height : Nat)
    (c s : ℚ) :
    WellFormed (rotate_image_arbitrary image_data width height c s).1
      (new_width width height c s).toNat (new_height width height c s).toNat :=
  (sample_outer_loop
    (fun x y => 0 ≤ orig_x width height c s x y ∧ orig_x width height c s x y < (width : Int) ∧
      0 ≤ orig_y width height c s x y ∧ orig_y width height c s x y < (height : Int))
    (fun x y => getPixel image_data (orig_y width height c s x y).toNat
      (orig_x width height c s x y).toNat)
    (new_height width height c s).toNat (new_width width height c s).toNat
    (new_height width height c s).toNat (Nat.le_refl _)).1

/-- Content of the buffer returned by `rotate_image_arbitrary` at destination column `x`,
row `y`. -/
theorem rotate_image_arbitrary_getPixel (image_data : Image) (width height : Nat)
    (c s : ℚ) (x y : Nat) (hx : x < (new_width width height c s).toNat)
    (hy : y < (new_height width height c s).toNat) :
    getPixel (rotate_image_arbitrary image_data width height c s).1 y x =
      if 0 ≤ orig_x width height c s x y ∧ orig_x width height c s x y < (width : Int) ∧
          0 ≤ orig_y width height c s x y ∧ orig_y width height c s x y < (height : Int) then
        getPixel image_data (orig_y width height c s x y).toNat
          (orig_x width height c s x y).toNat
      else zeroPixel := by
  have h := (sample_outer_loop
    (fun x y => 0 ≤ orig_x width height c s x y ∧ orig_x width height c s x y < (width : Int) ∧
      0 ≤ orig_y width height c s x y ∧ orig_y width height c s x y < (height : Int))
    (fun x y => getPixel image_data (orig_y width height c s x y).toNat
      (orig_x width height c s x y).toNat)
    (new_height width height c s).toNat (new_width width height c s).toNat
    (new_height width height c s).toNat (Nat.le_refl _)).2 y x hy hx
  simpa [rotate_image_arbitrary, hy] using h

/-! ## Bounding box and source coordinate at angle 0, formulas evaluated exactly -/

theorem new_width_angle_zero (W H : Nat) : new_width W H 1 0 = (W : Int) := by
  unfold new_width
  simp [truncToInt_natCast]

theorem new_height_angle_zero (W H : Nat) : new_height W H 1 0 = (H : Int) := by
  unfold new_height
  simp [truncToInt_natCast]

theorem orig_x_angle_zero (W H x y : Nat) : orig_x W H 1 0 x y = (x : Int) := by
  unfold orig_x xt new_cx cx
  rw [new_width_angle_zero]
  have h : (1 : ℚ) * (((x : Int) - Int.tdiv (W : Int) 2 : Int) : ℚ)
      + 0 * ((yt W H 1 0 y : Int) : ℚ) + ((Int.tdiv (W : Int) 2 : Int) : ℚ)
      = (((x : Int) : Int) : ℚ) := by
    push_cast
    ring
  rw [h, truncToInt_intCast]

theorem orig_y_angle_zero (W H x y : Nat) : orig_y W H 1 0 x y = (y : Int) := by
  unfold orig_y yt new_cy cy
  rw [new_height_angle_zero]
  have h : -(0 : ℚ) * ((xt W H 1 0 x : Int) : ℚ)
      + 1 * (((y : Int) - Int.tdiv (H : Int) 2 : Int) : ℚ) + ((Int.tdiv (H : Int) 2 : Int) : ℚ)
      = (((y : Int) : Int) : ℚ) := by
    push_cast
    ring
  rw [h, truncToInt_intCast]

/-! ## The sample rotation with cosine 3/5 and sine 4/5 on a 4×4 image, evaluated exactly -/

theorem sample_new_width : new_width 4 4 (3 / 5) (4 / 5) = 5 := by
  unfold new_width
  apply truncToInt_of_nonneg <;> norm_num [abs_of_nonneg]

theorem sample_new_height : new_height 4 4 (3 / 5) (4 / 5) = 5 := by
  unfold new_height
  apply truncToInt_of_nonneg <;> norm_num [abs_of_nonneg]

theorem sample_cx : cx 4 = 2 := by decide

theorem sample_cy : cy 4 = 2 := by decide

/-! ## The static split -/

theorem mul_imagesPerThread_le (N T i : Nat) (hi : i ≤ T) : i * imagesPerThread N T ≤ N := by
  unfold imagesPerThread
  calc i * (N / T) ≤ T * (N / T) := Nat.mul_le_mul_right _ hi
    _ ≤ N := Nat.mul_div_le N T

theorem startIdx_eq (N T i : Nat) (hN : N < sizeMod) (hi : i < T) :
    startIdx N T i = i * imagesPerThread N T := by
  unfold startIdx
  apply Nat.mod_eq_of_lt
  have h := mul_imagesPerThread_le N T i (by omega)
  omega

theorem endIdx_eq_of_not_last (N T i : Nat) (hN : N < sizeMod) (hi : i + 1 < T) :
    endIdx N T i = (i + 1) * imagesPerThread N T := by
  unfold endIdx
  rw [if_neg (by omega)]
  apply Nat.mod_eq_of_lt
  have h := mul_imagesPerThread_le N T (i + 1) (by omega)
  omega

theorem endIdx_last (N T : Nat) : endIdx N T (T - 1) = N := by
  unfold endIdx
  rw [if_pos rfl]

theorem mem_workerSlice (N T i j : Nat) :
    j ∈ workerSlice N T i ↔ startIdx N T i ≤ j ∧ j < endIdx N T i := by
  unfold workerSlice
  rw [List.mem_range'_1]
  omega

/-- A slice ends where the next one starts, and slices of later workers start later. -/
theorem endIdx_le_startIdx (N T i k : Nat) (hN : N < sizeMod) (hik : i < k) (hk : k < T) :
    endIdx N T i ≤ startIdx N T k := by
  rw [endIdx_eq_of_not_last N T i hN (by omega), startIdx_eq N T k hN hk]
  exact Nat.mul_le_mul_right _ (by omega)

theorem startIdx_le_endIdx (N T i : Nat) (hN : N < sizeMod) (hi : i < T) :
    startIdx N T i ≤ endIdx N T i ∧ endIdx N T i ≤ N := by
  rw [startIdx_eq N T i hN hi]
  by_cases hlast : i + 1 < T
  · rw [endIdx_eq_of_not_last N T i hN hlast]
    exact ⟨Nat.mul_le_mul_right _ (by omega), mul_imagesPerThread_le N T (i + 1) (by omega)⟩
  · have e : i = T - 1 := by omega
    rw [e, endIdx_last]
    exact ⟨mul_imagesPerThread_le N T (T - 1) (by omega), Nat.le_refl _⟩

/-- Every index below `N` lies in the slice of some worker. -/
theorem exists_worker (N T j : Nat) (hT : 1 ≤ T) (hN : N < sizeMod) (hj : j < N) :
    ∃ i, i < T ∧ startIdx N T i ≤ j ∧ j < endIdx N T i := by
  by_cases hcase : j < (T - 1) * imagesPerThread N T
  · have hq : 0 < imagesPerThread N T := by
      rcases Nat.eq_zero_or_pos (imagesPerThread N T) with h0 | hpos
      · rw [h0] at hcase
        simp at hcase
      · exact hpos
    have hi : j / imagesPerThread N T < T - 1 := by
      apply Nat.div_lt_of_lt_mul
      rw [Nat.mul_comm]
      exact hcase
    refine ⟨j / imagesPerThread N T, by omega, ?_, ?_⟩
    · rw [startIdx_eq N T _ hN (by omega)]
      exact Nat.div_mul_le_self j _
    · rw [endIdx_eq_of_not_last N T _ hN (by omega), Nat.mul_comm]
      exact Nat.lt_mul_div_succ j hq
  · refine ⟨T - 1, by omega, ?_, ?_⟩
    · rw [startIdx_eq N T _ hN (by omega)]
      omega
    · rw [endIdx_last]
      exact hj

/-! ## The file pipeline -/

theorem read_png_file_outcome (f : FileCalls) :
    read_png_file f = .exited 1 ∨ read_png_file f = .thrown ∨
      read_png_file f = .returned f.decoded := by
  unfold read_png_file
  split_ifs <;> simp

theorem write_png_file_outcome (f : FileCalls) (image_data : Image) (width height : Nat) :
    write_png_file f image_data width height = .exited 1 ∨
      write_png_file f image_data width height = .thrown ∨
      write_png_file f image_data width height = .returned () := by
  unfold write_png_file
  split_ifs <;> simp

theorem process_image_try_outcome (f : FileCalls) :
    process_image_try f = .exited 1 ∨ process_image_try f = .thrown ∨
      process_image_try f = .returned () := by
  unfold process_image_try
  rcases read_png_file_outcome f with h | h | h
  · rw [h]
    simp
  · rw [h]
    simp
  · rw [h]
    dsimp only
    split_ifs
    · simp
    · exact write_png_file_outcome f _ _ _

theorem process_image_outcome (f : FileCalls) :
    process_image f = .returned () ∨ process_image f = .exited 1 := by
  unfold process_image
  rcases process_image_try_outcome f with h | h | h
  · rw [h]
    simp
  · rw [h]
    simp
  · rw [h]
    simp

theorem range_append_range' (a b : Nat) (hab : a ≤ b) :
    List.range a ++ List.range' a (b - a) = List.range b := by
  rw [List.range_eq_range', List.range_eq_range']
  have h := List.range'_append 0 a (b - a) 1
  have e1 : 0 + 1 * a = a := by omega
  have e2 : b - a + a = b := by omega
  rw [e1, e2] at h
  exact h

/-- The workers before worker `k`, run in order, visit the indices below `startIdx k`. -/
theorem workers_before (image_paths : List FileCalls) (T : Nat)
    (hN : image_paths.length < sizeMod) (st : Run) (k : Nat) (hk : k < T) :
    (List.range k).foldl (runWorker image_paths T) st =
      (List.range (startIdx image_paths.length T k)).foldl (runFile image_paths) st := by
  induction k with
  | zero =>
    rw [startIdx_eq _ _ _ hN hk]
    simp
  | succ k ih =>
    rw [List.range_succ, List.foldl_append]
    simp only [List.foldl_cons, List.foldl_nil]
    rw [ih (by omega)]
    unfold runWorker workerSlice
    rw [← List.foldl_append,
      range_append_range' _ _ (startIdx_le_endIdx _ T k hN (by omega)).1,
      startIdx_eq _ T (k + 1) hN hk, endIdx_eq_of_not_last _ T k hN hk]

/-- All workers together, run in worker order, visit the indices `0, 1, ..., N - 1`. -/
theorem workers_all (image_paths : List FileCalls) (T : Nat) (hT : 1 ≤ T)
    (hN : image_paths.length < sizeMod) (st : Run) :
    (List.range T).foldl (runWorker image_paths T) st =
      (List.range image_paths.length).foldl (runFile image_paths) st := by
  have e : T = (T - 1) + 1 := by omega
  rw [e, List.range_succ, List.foldl_append]
  simp only [List.foldl_cons, List.foldl_nil]
  rw [workers_before image_paths (T - 1 + 1) hN st (T - 1) (by omega)]
  unfold runWorker workerSlice
  rw [← List.foldl_append, ← e,
    range_append_range' _ _ (startIdx_le_endIdx _ T (T - 1) hN (by omega)).1, endIdx_last]

/-- State of a run over the first `k` files: either every call of `process_image` so far
has returned, or the process has ended with status 1. -/
theorem run_first_files (image_paths : List FileCalls) (k : Nat) (hk : k ≤ image_paths.length) :
    ((∀ j, (hj : j < k) → process_image (image_paths[j]) = .returned ()) ∧
      (List.range k).foldl (runFile image_paths) ⟨[], none⟩ = ⟨List.range k, none⟩) ∨
    ((∃ j, ∃ hj : j < k, process_image (image_paths[j]) = .exited 1) ∧
      ((List.range k).foldl (runFile image_paths) ⟨[], none⟩).exit_status = some 1) := by
  induction k with
  | zero =>
    left
    exact ⟨fun j hj => absurd hj (Nat.not_lt_zero j), rfl⟩
  | succ k ih =>
    rw [List.range_succ, List.foldl_append]
    simp only [List.foldl_cons, List.foldl_nil]
    have hk' : k < image_paths.length := by omega
    rcases ih (by omega) with ⟨hall, hrun⟩ | ⟨⟨j, hj, hex⟩, hst⟩
    · rw [hrun]
      rcases process_image_outcome (image_paths[k]) with hret | hexit
      · left
        refine ⟨?_, ?_⟩
        · intro j hj
          by_cases hjk : j = k
          · subst hjk
            exact hret
          · exact hall j (by omega)
        · simp [runFile, hk', hret, List.range_succ]
      · right
        refine ⟨⟨k, by omega, hexit⟩, ?_⟩
        simp [runFile, hk', hexit]
    · right
      refine ⟨⟨j, by omega, hex⟩, ?_⟩
      simp [runFile, hst]

/-! ## Claims about the fixed quarter turn -/

/-- C1: in the buffer returned by `rotate_image` for a well-formed source of width `W` and
height `H`, the source pixel in column `x`, row `y` is found in destination column
`H - 1 - y`, row `x`. In particular source (0,0) is at destination column `H - 1`, row 0,
source (W-1,0) is at destination column `H - 1`, row `W - 1`, and destination (0,0) holds
the source pixel of column 0, row `H - 1`. -/
theorem rotate_image_places_source_pixel (image_data : Image) (W H : Nat)
    (hwf : WellFormed image_data W H) (x y : Nat) (hx : x < W) (hy : y < H) :
    getPixel (rotate_image image_data W H).1 x (H - 1 - y) = getPixel image_data y x ∧
    getPixel (rotate_image image_data W H).1 0 (H - 1) = getPixel image_data 0 0 ∧
    getPixel (rotate_image image_data W H).1 (W - 1) (H - 1) = getPixel image_data 0 (W - 1) ∧
    getPixel (rotate_image image_data W H).1 0 0 = getPixel image_data (H - 1) 0 := by
  have _ := hwf
  have e1 : H - 1 - (H - 1 - y) = y := by omega
  have e2 : H - 1 - (H - 1) = 0 := by omega
  refine ⟨?_, ?_, ?_, ?_⟩
  · rw [rotate_image_getPixel image_data W H x (H - 1 - y) hx (by omega), e1]
  · rw [rotate_image_getPixel image_data W H 0 (H - 1) (by omega) (by omega), e2]
  · rw [rotate_image_getPixel image_data W H (W - 1) (H - 1) (by omega) (by omega), e2]
  · rw [rotate_image_getPixel image_data W H 0 0 (by omega) (by omega)]
    simp

/-- C1 on the 4×2 sample: destination (0,0) is the source pixel of column 0, row 1, and the
source pixel of column 3, row 0 is in destination column 1, row 3. -/
theorem rotate_image_places_source_pixel_witness :
    WellFormed image4x2 4 2 ∧ 3 < 4 ∧ 0 < 2 ∧
    (getPixel (rotate_image image4x2 4 2).1 3 (2 - 1 - 0) = getPixel image4x2 0 3 ∧
     getPixel (rotate_image image4x2 4 2).1 0 (2 - 1) = getPixel image4x2 0 0 ∧
     getPixel (rotate_image image4x2 4 2).1 (4 - 1) (2 - 1) = getPixel image4x2 0 (4 - 1) ∧
     getPixel (rotate_image image4x2 4 2).1 0 0 = getPixel image4x2 (2 - 1) 0) :=
  ⟨by decide, by decide, by decide,
    rotate_image_places_source_pixel image4x2 4 2 (by decide) 3 0 (by decide) (by decide)⟩

/-- C2: for a well-formed source of width `W` and height `H`, `rotate_image` returns `W`
rows of `H` pixels each and reports width `H` and height `W`. -/
theorem rotate_image_swaps_dimensions (image_data : Image) (W H : Nat)
    (hwf : WellFormed image_data W H) :
    (rotate_image image_data W H).1.length = W ∧
    (∀ row ∈ (rotate_image image_data W H).1, row.length = H) ∧
    (rotate_image image_data W H).2.1 = H ∧
    (rotate_image image_data W H).2.2 = W ∧
    (rotate90 (image_data, W, H)).2.1 = H ∧
    (rotate90 (image_data, W, H)).2.2 = W := by
  have _ := hwf
  obtain ⟨h1, h2⟩ := rotate_image_wellFormed image_data W H
  exact ⟨h1, h2, rfl, rfl, rfl, rfl⟩

/-- C2 on the 4×2 sample. -/
theorem rotate_image_swaps_dimensions_witness :
    WellFormed image4x2 4 2 ∧
    (rotate_image image4x2 4 2).1.length = 4 ∧
    (∀ row ∈ (rotate_image image4x2 4 2).1, row.length = 2) ∧
    (rotate_image image4x2 4 2).2.1 = 2 ∧
    (rotate_image image4x2 4 2).2.2 = 4 ∧
    (rotate90 (image4x2, 4, 2)).2.1 = 2 ∧
    (rotate90 (image4x2, 4, 2)).2.2 = 4 :=
  ⟨by decide, rotate_image_swaps_dimensions image4x2 4 2 (by decide)⟩

/-- C3: four successive calls of `rotate_image` on a well-formed buffer give back the
buffer: the same pixels, the same width and the same height. -/
theorem rotate_image_four_times (image_data : Image) (W H : Nat)
    (hwf : WellFormed image_data W H) :
    rotate90 (rotate90 (rotate90 (rotate90 (image_data, W, H)))) = (image_data, W, H) := by
  have himg : (rotate_image (rotate_image (rotate_image (rotate_image image_data W H).1 H W).1
      W H).1 H W).1 = image_data := by
    apply image_ext (rotate_image_wellFormed _ H W) hwf
    intro r c hr hc
    rw [rotate_image_getPixel _ H W r c hr hc,
      rotate_image_getPixel _ W H (W - 1 - c) r (by omega) hr,
      rotate_image_getPixel _ H W (H - 1 - r) (W - 1 - c) (by omega) (by omega),
      rotate_image_getPixel _ W H (W - 1 - (W - 1 - c)) (H - 1 - r) (by omega) (by omega)]
    have e1 : H - 1 - (H - 1 - r) = r := by omega
    have e2 : W - 1 - (W - 1 - c) = c := by omega
    rw [e1, e2]
  show ((rotate_image (rotate_image (rotate_image (rotate_image image_data W H).1 H W).1
      W H).1 H W).1, W, H) = (image_data, W, H)
  rw [himg]

/-- C3 on the 4×2 sample. -/
theorem rotate_image_four_times_witness :
    WellFormed image4x2 4 2 ∧
    rotate90 (rotate90 (rotate90 (rotate90 (image4x2, 4, 2)))) = (image4x2, 4, 2) :=
  ⟨by decide, rotate_image_four_times image4x2 4 2 (by decide)⟩

/-- C10: two successive calls of `rotate_image` on a well-formed buffer of width `W` and
height `H` give a buffer of width `W` and height `H` (`H` rows of `W` pixels) whose pixel in
column `x`, row `y` is the source pixel in column `W - 1 - x`, row `H - 1 - y`. -/
theorem rotate_image_twice (image_data : Image) (W H : Nat)
    (hwf : WellFormed image_data W H) (x y : Nat) (hx : x < W) (hy : y < H) :
    (rotate90 (rotate90 (image_data, W, H))).2.1 = W ∧
    (rotate90 (rotate90 (image_data, W, H))).2.2 = H ∧
    WellFormed (rotate90 (rotate90 (image_data, W, H))).1 W H ∧
    getPixel (rotate90 (rotate90 (image_data, W, H))).1 y x =
      getPixel image_data (H - 1 - y) (W - 1 - x) := by
  have _ := hwf
  refine ⟨rfl, rfl, rotate_image_wellFormed _ H W, ?_⟩
  show getPixel (rotate_image (rotate_image image_data W H).1 H W).1 y x = _
  rw [rotate_image_getPixel _ H W y x hy hx,
    rotate_image_getPixel _ W H (W - 1 - x) y (by omega) hy]

/-- C10 on the 4×2 sample: after two calls the pixel in column 1, row 0 is the source pixel
in column 2, row 1. -/
theorem rotate_image_twice_witness :
    WellFormed image4x2 4 2 ∧ 1 < 4 ∧ 0 < 2 ∧
    ((rotate90 (rotate90 (image4x2, 4, 2))).2.1 = 4 ∧
     (rotate90 (rotate90 (image4x2, 4, 2))).2.2 = 2 ∧
     WellFormed (rotate90 (rotate90 (image4x2, 4, 2))).1 4 2 ∧
     getPixel (rotate90 (rotate90 (image4x2, 4, 2))).1 0 1 =
       getPixel image4x2 (2 - 1 - 0) (4 - 1 - 1)) :=
  ⟨by decide, by decide, by decide,
    rotate_image_twice image4x2 4 2 (by decide) 1 0 (by decide) (by decide)⟩

/-! ## Claims about the static split -/

/-- C4: for a file list of length `N` (a `size_t` value) and `T ≥ 1` workers, the slices
`[startIdx, endIdx)` of the workers `0 .. T-1` partition `[0, N)`: every index below `N` is
in the slice of exactly one worker, no slice holds an index outside `[0, N)`, the first slice
starts at 0, each slice starts where the previous one ends, and the last slice ends at `N`. -/
theorem worker_slices_partition (N T : Nat) (hT : 1 ≤ T) (hN : N < sizeMod) :
    (∀ j, j < N → ∃! i, i < T ∧ j ∈ workerSlice N T i) ∧
    (∀ i j, i < T → j ∈ workerSlice N T i → j < N) ∧
    (∀ i, i < T → startIdx N T i ≤ endIdx N T i) ∧
    startIdx N T 0 = 0 ∧
    (∀ i, i + 1 < T → startIdx N T (i + 1) = endIdx N T i) ∧
    (∀ i, i + 1 < T → startIdx N T i = i * (N / T) ∧ endIdx N T i = (i + 1) * (N / T)) ∧
    startIdx N T (T - 1) = (T - 1) * (N / T) ∧
    endIdx N T (T - 1) = N := by
  refine ⟨?_, ?_, ?_, ?_, ?_, ?_, ?_, endIdx_last N T⟩
  · intro j hj
    obtain ⟨i, hi, h1, h2⟩ := exists_worker N T j hT hN hj
    refine ⟨i, ⟨hi, (mem_workerSlice N T i j).mpr ⟨h1, h2⟩⟩, ?_⟩
    rintro k ⟨hk, hmem⟩
    obtain ⟨h3, h4⟩ := (mem_workerSlice N T k j).mp hmem
    rcases Nat.lt_trichotomy k i with hlt | heq | hgt
    · have := endIdx_le_startIdx N T k i hN hlt hi
      omega
    · exact heq
    · have := endIdx_le_startIdx N T i k hN hgt hk
      omega
  · intro i j hi hmem
    obtain ⟨_, h4⟩ := (mem_workerSlice N T i j).mp hmem
    have := (startIdx_le_endIdx N T i hN hi).2
    omega
  · intro i hi
    exact (startIdx_le_endIdx N T i hN hi).1
  · rw [startIdx_eq N T 0 hN (by omega)]
    simp
  · intro i hi
    rw [startIdx_eq N T (i + 1) hN hi, endIdx_eq_of_not_last N T i hN hi]
  · intro i hi
    exact ⟨startIdx_eq N T i hN (by omega), endIdx_eq_of_not_last N T i hN hi⟩
  · exact startIdx_eq N T (T - 1) hN (by omega)

/-- C4 for ten files and four workers. -/
theorem worker_slices_partition_witness :
    1 ≤ 4 ∧ 10 < sizeMod ∧
    (∃! i, i < 4 ∧ 7 ∈ workerSlice 10 4 i) ∧
    startIdx 10 4 0 = 0 ∧
    endIdx 10 4 (4 - 1) = 10 :=
  ⟨by decide, by decide,
    (worker_slices_partition 10 4 (by decide) (by decide)).1 7 (by decide),
    (worker_slices_partition 10 4 (by decide) (by decide)).2.2.2.1,
    (worker_slices_partition 10 4 (by decide) (by decide)).2.2.2.2.2.2.2⟩

/-! ## Claims about error handling -/

/-- C8, the claim as stated fails: for a batch of two files of which the first cannot be
opened for reading, `process_image` does not return for that file but ends the process
through `exit(1)`; the second file, in the slice of the same worker, is never processed, and
the exit status of the process is 1, not 0. -/
theorem unopenable_file_ends_process :
    process_image unopenableFile = .exited 1 ∧
    process_image unopenableFile ≠ .returned () ∧
    main [unopenableFile, readableFile] 16 = (⟨[], some 1⟩, 1) ∧
    1 ∉ (main [unopenableFile, readableFile] 16).1.processed ∧
    (main [unopenableFile, readableFile] 16).2 ≠ 0 := by
  decide

/-- C8 as amended: only an error raised as a C++ exception inside the `try` block is
contained by `process_image`, which then returns normally; `process_image` either returns or
ends the process with status 1, and it ends the process whenever the file cannot be opened
for reading. When `process_image` returns for every file of the batch, every file is
processed, in list order, and the process ends with status 0; when it ends the process for
some file, the exit status is 1. -/
theorem exceptions_contained_exit_not (image_paths : List FileCalls) (T : Nat)
    (hT : 1 ≤ T) (hN : image_paths.length < sizeMod) :
    (∀ f, process_image_try f = .thrown → process_image f = .returned ()) ∧
    (∀ f, process_image f = .returned () ∨ process_image f = .exited 1) ∧
    (∀ f, f.fopen_rb = false → process_image f = .exited 1) ∧
    ((∀ f ∈ image_paths, process_image f = .returned ()) →
      main image_paths T = (⟨List.range image_paths.length, none⟩, 0)) ∧
    ((∃ f ∈ image_paths, process_image f = .exited 1) → (main image_paths T).2 = 1) := by
  refine ⟨?_, process_image_outcome, ?_, ?_, ?_⟩
  · intro f hf
    unfold process_image
    rw [hf]
  · intro f hf
    simp [process_image, process_image_try, read_png_file, hf]
  · intro hall
    rcases run_first_files image_paths image_paths.length (Nat.le_refl _) with ⟨_, hrun⟩ | ⟨⟨j, hj, hex⟩, _⟩
    · unfold main
      rw [workers_all image_paths T hT hN, hrun]
      rfl
    · have := hall _ (List.getElem_mem hj)
      rw [this] at hex
      cases hex
  · rintro ⟨f, hf, hexit⟩
    rcases run_first_files image_paths image_paths.length (Nat.le_refl _) with ⟨hret, _⟩ | ⟨_, hst⟩
    · obtain ⟨j, hj, rfl⟩ := List.getElem_of_mem hf
      rw [hret j hj] at hexit
      cases hexit
    · unfold main
      rw [workers_all image_paths T hT hN]
      simp [hst]

/-- C8 as amended, on a batch of two files of which the first makes `image_data.resize`
throw: both files are processed and the exit status is 0. -/
theorem exceptions_contained_exit_not_witness :
    1 ≤ 16 ∧ [oversizedFile, readableFile].length < sizeMod ∧
    process_image_try oversizedFile = .thrown ∧
    process_image oversizedFile = .returned () ∧
    main [oversizedFile, readableFile] 16 =
      (⟨List.range [oversizedFile, readableFile].length, none⟩, 0) :=
  ⟨by decide, by decide, by decide,
    (exceptions_contained_exit_not [oversizedFile, readableFile] 16 (by decide) (by decide)).1
      oversizedFile (by decide),
    (exceptions_contained_exit_not [oversizedFile, readableFile] 16 (by decide)
      (by decide)).2.2.2.1 (by decide)⟩

/-! ## The degenerate split -/

theorem imagesPerThread_eq_zero (N T : Nat) (h : N < T) : imagesPerThread N T = 0 := by
  unfold imagesPerThread
  exact Nat.div_eq_of_lt h

theorem startIdx_of_lt (N T i : Nat) (h : N < T) : startIdx N T i = 0 := by
  unfold startIdx
  rw [imagesPerThread_eq_zero N T h]
  simp

theorem endIdx_of_lt (N T i : Nat) (h : N < T) (hi : i < T - 1) : endIdx N T i = 0 := by
  unfold endIdx
  rw [if_neg (by omega), imagesPerThread_eq_zero N T h]
  simp

/-- C11: when the file list is shorter than the worker count (`N < T`), the slice of every
worker `i < T - 1` is empty, with `startIdx = endIdx = 0`, and the slice of the last worker
`T - 1` is the whole list: `startIdx = 0`, `endIdx = N`, indices `0, ..., N - 1`. -/
theorem degenerate_split (N T : Nat) (h : N < T) :
    (∀ i, i < T - 1 →
      startIdx N T i = 0 ∧ endIdx N T i = 0 ∧ workerSlice N T i = []) ∧
    startIdx N T (T - 1) = 0 ∧ endIdx N T (T - 1) = N ∧
    workerSlice N T (T - 1) = List.range N := by
  refine ⟨?_, startIdx_of_lt N T _ h, endIdx_last N T, ?_⟩
  · intro i hi
    refine ⟨startIdx_of_lt N T i h, endIdx_of_lt N T i h hi, ?_⟩
    unfold workerSlice
    rw [startIdx_of_lt N T i h, endIdx_of_lt N T i h hi]
    rfl
  · unfold workerSlice
    rw [startIdx_of_lt N T _ h, endIdx_last, List.range_eq_range']
    rfl

/-- C11 for three files and sixteen workers: worker 7 has an empty slice and worker 15 has
the indices 0, 1, 2. -/
theorem degenerate_split_witness :
    3 < 16 ∧
    (startIdx 3 16 7 = 0 ∧ endIdx 3 16 7 = 0 ∧ workerSlice 3 16 7 = []) ∧
    startIdx 3 16 (16 - 1) = 0 ∧ endIdx 3 16 (16 - 1) = 3 ∧
    workerSlice 3 16 (16 - 1) = List.range 3 :=
  ⟨by decide, (degenerate_split 3 16 (by decide)).1 7 (by decide),
    (degenerate_split 3 16 (by decide)).2⟩

/-! ## The assignments of `rotate_image` -/

theorem foldl_flatMap_eq {α β γ : Type} (f : γ → β → γ) (g : α → List β) (l : List α)
    (init : γ) :
    (l.flatMap g).foldl f init = l.foldl (fun acc a => (g a).foldl f acc) init := by
  induction l generalizing init with
  | nil => rfl
  | cons a l ih => simp [List.flatMap_cons, List.foldl_append, ih]

/-- The buffer built by `rotate_image` is the blank buffer after the listed assignments. -/
theorem rotate_image_eq_assignments (image_data : Image) (width height : Nat) :
    (rotate_image image_data width height).1 =
      (rotate_image_assignments image_data width height).foldl
        (fun acc a => setPixel acc a.1 a.2.1 a.2.2) (blankImage width height) := by
  unfold rotate_image rotate_image_assignments
  rw [foldl_flatMap_eq]
  simp only [List.foldl_map]

/-- The index pairs `(row, column)` assigned by `rotate_image`, in execution order. -/
theorem assigned_indices (image_data : Image) (width height : Nat) :
    (rotate_image_assignments image_data width height).map (fun a => (a.1, a.2.1)) =
      (List.range height).flatMap
        (fun y => (List.range width).map (fun x => (x, height - 1 - y))) := by
  unfold rotate_image_assignments
  rw [List.map_flatMap]
  simp only [List.map_map]
  rfl

theorem assigned_indices_nodup (image_data : Image) (width height : Nat) :
    ((rotate_image_assignments image_data width height).map (fun a => (a.1, a.2.1))).Nodup := by
  rw [assigned_indices, List.nodup_flatMap]
  constructor
  · intro y _
    apply List.Nodup.map _ (List.nodup_range width)
    intro a b hab
    exact (Prod.mk.inj hab).1
  · apply List.Pairwise.imp_of_mem _ (List.pairwise_lt_range height)
    intro y1 y2 h1 h2 hlt
    rw [List.mem_range] at h1 h2
    intro p hp1 hp2
    rw [List.mem_map] at hp1 hp2
    obtain ⟨x1, _, e1⟩ := hp1
    obtain ⟨x2, _, e2⟩ := hp2
    rw [← e2] at e1
    have := (Prod.mk.inj e1).2
    omega

theorem countP_eq_one_of_nodup {α β : Type} [DecidableEq β] (f : α → β) (l : List α)
    (hnd : (l.map f).Nodup) (b : β) (hb : b ∈ l.map f) :
    l.countP (fun a => decide (f a = b)) = 1 := by
  induction l with
  | nil => simp at hb
  | cons a l ih =>
    rw [List.map_cons, List.nodup_cons] at hnd
    rw [List.countP_cons]
    by_cases hab : f a = b
    · have hzero : l.countP (fun a => decide (f a = b)) = 0 := by
        rw [List.countP_eq_zero]
        intro x hx
        simp only [decide_eq_true_eq]
        intro hxb
        apply hnd.1
        rw [hab, ← hxb]
        exact List.mem_map_of_mem f hx
      rw [hzero]
      simp [hab]
    · rw [List.map_cons, List.mem_cons] at hb
      rcases hb with hb | hb
      · exact absurd hb.symm hab
      · rw [ih hnd.2 hb]
        simp [hab]

theorem length_flatMap_range {β : Type} (g : Nat → Nat → β) (n w : Nat) :
    ((List.range n).flatMap (fun y => (List.range w).map (g y))).length = n * w := by
  induction n with
  | zero => simp
  | succ n ih =>
    rw [List.range_succ, List.flatMap_append, List.length_append, ih]
    simp [Nat.succ_mul]

theorem length_assignments (image_data : Image) (width height : Nat) :
    (rotate_image_assignments image_data width height).length = height * width :=
  length_flatMap_range _ height width

theorem mem_assignments (image_data : Image) (width height r c : Nat)
    (hr : r < width) (hc : c < height) :
    (r, c, getPixel image_data (height - 1 - c) r) ∈
      rotate_image_assignments image_data width height := by
  unfold rotate_image_assignments
  rw [List.mem_flatMap]
  refine ⟨height - 1 - c, List.mem_range.mpr (by omega), ?_⟩
  rw [List.mem_map]
  refine ⟨r, List.mem_range.mpr hr, ?_⟩
  have e : height - 1 - (height - 1 - c) = c := by omega
  rw [e]

theorem assignment_of_mem (image_data : Image) (width height : Nat) (a : Nat × Nat × Pixel)
    (ha : a ∈ rotate_image_assignments image_data width height) :
    ∃ x y, x < width ∧ y < height ∧ (a.2.1, a.1) = destination height x y ∧
      a.2.2 = getPixel image_data y x := by
  unfold rotate_image_assignments at ha
  rw [List.mem_flatMap] at ha
  obtain ⟨y, hy, hmem⟩ := ha
  rw [List.mem_map] at hmem
  obtain ⟨x, hx, rfl⟩ := hmem
  exact ⟨x, y, List.mem_range.mp hx, List.mem_range.mp hy, rfl, rfl⟩

/-! ## Claim about the coordinate map of the quarter turn -/

/-- C12: the map `(x, y) ↦ (H - 1 - y, x)` of `rotate_image` sends the source coordinates
`[0,W) × [0,H)` into the destination coordinates `[0,H) × [0,W)` and every destination
coordinate has exactly one source coordinate. The assignments of the double loop are those of
this map, every destination pixel is assigned exactly once, and after the loop it holds the
source pixel assigned to it, so none is left with the initial zero fill by omission. -/
theorem rotate_image_map_bijective (image_data : Image) (W H : Nat) :
    (∀ x y, x < W → y < H → (destination H x y).1 < H ∧ (destination H x y).2 < W) ∧
    (∀ c r, c < H → r < W →
      ∃! p : Nat × Nat, p.1 < W ∧ p.2 < H ∧ destination H p.1 p.2 = (c, r)) ∧
    (rotate_image image_data W H).1 =
      (rotate_image_assignments image_data W H).foldl
        (fun acc a => setPixel acc a.1 a.2.1 a.2.2) (blankImage W H) ∧
    (∀ a ∈ rotate_image_assignments image_data W H,
      ∃ x y, x < W ∧ y < H ∧ (a.2.1, a.1) = destination H x y ∧
        a.2.2 = getPixel image_data y x) ∧
    (rotate_image_assignments image_data W H).length = H * W ∧
    (∀ c r, c < H → r < W →
      (rotate_image_assignments image_data W H).countP (fun a => a.1 = r ∧ a.2.1 = c) = 1 ∧
      (r, c, getPixel image_data (H - 1 - c) r) ∈ rotate_image_assignments image_data W H ∧
      getPixel (rotate_image image_data W H).1 r c = getPixel image_data (H - 1 - c) r) := by
  refine ⟨?_, ?_, rotate_image_eq_assignments image_data W H,
    assignment_of_mem image_data W H, ?_, ?_⟩
  · intro x y hx hy
    unfold destination
    constructor
    · show H - 1 - y < H
      omega
    · exact hx
  · intro c r hc hr
    refine ⟨(r, H - 1 - c), ⟨hr, by show H - 1 - c < H; omega, ?_⟩, ?_⟩
    · unfold destination
      show (H - 1 - (H - 1 - c), r) = (c, r)
      have e : H - 1 - (H - 1 - c) = c := by omega
      rw [e]
    · rintro ⟨x, y⟩ ⟨hx, hy, hd⟩
      unfold destination at hd
      have h1 := (Prod.mk.inj hd).1
      have h2 := (Prod.mk.inj hd).2
      simp only at h1 h2 hx hy
      have e : y = H - 1 - c := by omega
      rw [h2, e]
  · exact length_assignments image_data W H
  · intro c r hc hr
    have hmem := mem_assignments image_data W H r c hr hc
    refine ⟨?_, hmem, rotate_image_getPixel image_data W H r c hr hc⟩
    have h := countP_eq_one_of_nodup (fun a : Nat × Nat × Pixel => (a.1, a.2.1)) _
      (assigned_indices_nodup image_data W H) (r, c) (List.mem_map.mpr ⟨_, hmem, rfl⟩)
    rw [← h]
    apply List.countP_congr
    intro a _
    simp [Prod.mk.injEq]

/-- C12 on the 4×2 sample: destination column 1, row 3 has the single source coordinate
column 3, row 0 and is assigned once. -/
theorem rotate_image_map_bijective_witness :
    3 < 4 ∧ 0 < 2 ∧ 1 < 2 ∧
    ((destination 2 3 0).1 < 2 ∧ (destination 2 3 0).2 < 4) ∧
    (∃! p : Nat × Nat, p.1 < 4 ∧ p.2 < 2 ∧ destination 2 p.1 p.2 = (1, 3)) ∧
    (rotate_image_assignments image4x2 4 2).length = 2 * 4 ∧
    ((rotate_image_assignments image4x2 4 2).countP (fun a => a.1 = 3 ∧ a.2.1 = 1) = 1 ∧
      (3, 1, getPixel image4x2 (2 - 1 - 1) 3) ∈ rotate_image_assignments image4x2 4 2 ∧
      getPixel (rotate_image image4x2 4 2).1 3 1 = getPixel image4x2 (2 - 1 - 1) 3) :=
  ⟨by decide, by decide, by decide,
    (rotate_image_map_bijective image4x2 4 2).1 3 0 (by decide) (by decide),
    (rotate_image_map_bijective image4x2 4 2).2.1 1 3 (by decide) (by decide),
    (rotate_image_map_bijective image4x2 4 2).2.2.2.2.1,
    (rotate_image_map_bijective image4x2 4 2).2.2.2.2.2 1 3 (by decide) (by decide)⟩

/-! ## The recursion of `rotateImageRecursive` -/

/-- One source row of the recursion: from column `j` of row `i`, the calls for the remaining
`n` columns and the call that moves to the next row use `n + 1` levels of recursion and
make the assignments of the inner loop. -/
theorem recursive_row (image_data : Image) (rows cols i : Nat) (hi : i ≠ rows) :
    ∀ (n j : Nat) (acc : Image) (fuel : Nat), j + n = cols →
      rotateImageRecursive (fuel + n + 1) image_data acc i j rows cols =
        rotateImageRecursive fuel image_data
          ((List.range' j n).foldl
            (fun acc x => setPixel acc x (rows - 1 - i) (getPixel image_data i x)) acc)
          (i + 1) 0 rows cols := by
  intro n
  induction n with
  | zero =>
    intro j acc fuel hj
    have hj' : ¬ j < cols := by omega
    simp [rotateImageRecursive, hi, hj']
  | succ n ih =>
    intro j acc fuel hj
    have hj' : j < cols := by omega
    have e : fuel + (n + 1) + 1 = (fuel + n + 1) + 1 := by omega
    rw [e, rotateImageRecursive, if_neg hi, if_pos hj', ih (j + 1) _ fuel (by omega),
      List.range'_succ, List.foldl_cons]

/-- All remaining source rows: from the start of row `i`, with `m` rows left, the recursion
is `m * (cols + 1) + 1` calls deep and makes the assignments of the outer loop. -/
theorem recursive_rows (image_data : Image) (rows cols : Nat) :
    ∀ (m i : Nat) (acc : Image) (fuel : Nat), i + m = rows →
      rotateImageRecursive (fuel + m * (cols + 1) + 1) image_data acc i 0 rows cols =
        some ((List.range' i m).foldl
          (fun acc y => (List.range' 0 cols).foldl
            (fun acc x => setPixel acc x (rows - 1 - y) (getPixel image_data y x)) acc)
          acc) := by
  intro m
  induction m with
  | zero =>
    intro i acc fuel hi
    have hi' : i = rows := by omega
    simp [rotateImageRecursive, hi']
  | succ m ih =>
    intro i acc fuel hi
    have hi' : i ≠ rows := by omega
    have e : fuel + (m + 1) * (cols + 1) + 1 = (fuel + m * (cols + 1) + 1) + cols + 1 := by
      rw [Nat.succ_mul]
      omega
    rw [e, recursive_row image_data rows cols i hi' cols 0 acc _ (by omega),
      ih (i + 1) _ fuel (by omega), List.range'_succ, List.foldl_cons]

/-- Within one source row the recursion does not return with `n` or fewer levels when `n`
columns are left. -/
theorem recursive_row_none (image_data : Image) (rows cols i : Nat) (hi : i ≠ rows) :
    ∀ (fuel n j : Nat) (acc : Image), j + n = cols → fuel ≤ n →
      rotateImageRecursive fuel image_data acc i j rows cols = none := by
  intro fuel
  induction fuel with
  | zero =>
    intro n j acc _ _
    rfl
  | succ fuel ih =>
    intro n j acc hj hf
    have hj' : j < cols := by omega
    rw [rotateImageRecursive, if_neg hi, if_pos hj']
    exact ih (n - 1) (j + 1) _ (by omega) (by omega)

/-- With `m` source rows left the recursion does not return within `m * (cols + 1)` levels. -/
theorem recursive_rows_none (image_data : Image) (rows cols : Nat) :
    ∀ (m i : Nat) (acc : Image) (fuel : Nat), i + m = rows → fuel ≤ m * (cols + 1) →
      rotateImageRecursive fuel image_data acc i 0 rows cols = none := by
  intro m
  induction m with
  | zero =>
    intro i acc fuel _ hf
    have e : fuel = 0 := by omega
    rw [e]
    rfl
  | succ m ih =>
    intro i acc fuel hi hf
    have hi' : i ≠ rows := by omega
    rw [Nat.succ_mul] at hf
    by_cases hsmall : fuel ≤ cols
    · exact recursive_row_none image_data rows cols i hi' fuel cols 0 acc (by omega) hsmall
    · have e : fuel = (fuel - cols - 1) + cols + 1 := by omega
      rw [e, recursive_row image_data rows cols i hi' cols 0 acc _ (by omega)]
      exact ih (i + 1) _ _ (by omega) (by omega)

/-- Started at `(0, 0)`, the recursion returns the buffer of the double loop of `v2.cpp` as
soon as `height * (width + 1) + 1` levels of recursion are available. -/
theorem rotateImageRecursive_eq_loop (image_data : Image) (width height fuel : Nat)
    (hfuel : height * (width + 1) + 1 ≤ fuel) :
    rotateImageRecursive fuel image_data (blankImage width height) 0 0 height width =
      some (rotate_image image_data width height).1 := by
  have e : fuel = (fuel - (height * (width + 1) + 1)) + height * (width + 1) + 1 := by omega
  rw [e, recursive_rows image_data height width height 0 _ _ (by omega)]
  simp only [rotate_image, List.range_eq_range']

/-! ## Claim about the recursive formulation -/

/-- C13: for a well-formed source of width `W` and height `H` (zero included), the recursion
`rotateImageRecursive` started at `(0, 0)` with `rows = H` and `cols = W` terminates: it
returns once `H * (W + 1) + 1` nested calls are available (and not with fewer), and the
recursive `rotate_image` of `v2rec.cpp` then returns the same buffer, width and height as
the double loop `rotate_image` of `v2.cpp`. -/
theorem recursive_rotate_image_eq_iterative (image_data : Image) (W H : Nat)
    (hwf : WellFormed image_data W H) :
    (∀ fuel, H * (W + 1) + 1 ≤ fuel →
      rotateImageRecursive fuel image_data (blankImage W H) 0 0 H W =
        some (rotate_image image_data W H).1 ∧
      V2Rec.rotate_image fuel image_data W H = some (rotate_image image_data W H)) ∧
    (∀ fuel, fuel ≤ H * (W + 1) → V2Rec.rotate_image fuel image_data W H = none) := by
  have _ := hwf
  constructor
  · intro fuel hfuel
    have h := rotateImageRecursive_eq_loop image_data W H fuel hfuel
    refine ⟨h, ?_⟩
    unfold V2Rec.rotate_image
    rw [h]
    rfl
  · intro fuel hfuel
    unfold V2Rec.rotate_image
    rw [recursive_rows_none image_data H W H 0 _ fuel (by omega) hfuel]

/-- C13 on the 4×2 sample: eleven nested calls are enough, ten are not. -/
theorem recursive_rotate_image_eq_iterative_witness :
    WellFormed image4x2 4 2 ∧ 2 * (4 + 1) + 1 ≤ 11 ∧ 10 ≤ 2 * (4 + 1) ∧
    (rotateImageRecursive 11 image4x2 (blankImage 4 2) 0 0 2 4 =
        some (rotate_image image4x2 4 2).1 ∧
      V2Rec.rotate_image 11 image4x2 4 2 = some (rotate_image image4x2 4 2)) ∧
    V2Rec.rotate_image 10 image4x2 4 2 = none :=
  ⟨by decide, by decide, by decide,
    (recursive_rotate_image_eq_iterative image4x2 4 2 (by decide)).1 11 (by decide),
    (recursive_rotate_image_eq_iterative image4x2 4 2 (by decide)).2 10 (by decide)⟩

/-! ## Truncation and lower bounds -/

theorem truncToInt_ge {q : ℚ} {n : Int} (h0 : 0 ≤ q) (h1 : (n : ℚ) ≤ q) : n ≤ truncToInt q := by
  unfold truncToInt
  rw [if_pos h0]
  exact Int.le_floor.mpr h1

/-! ## Rounding to the nearest integer -/

theorem roundHalfEven_intCast (n : Int) : roundHalfEven (n : ℚ) = n := by
  unfold roundHalfEven
  simp

theorem floor_le_roundHalfEven (x : ℚ) : ⌊x⌋ ≤ roundHalfEven x := by
  unfold roundHalfEven
  split_ifs <;> omega

theorem roundHalfEven_le_floor_add_one (x : ℚ) : roundHalfEven x ≤ ⌊x⌋ + 1 := by
  unfold roundHalfEven
  split_ifs <;> omega

theorem roundHalfEven_mono {x y : ℚ} (h : x ≤ y) : roundHalfEven x ≤ roundHalfEven y := by
  have hf : ⌊x⌋ ≤ ⌊y⌋ := Int.floor_mono h
  rcases lt_or_eq_of_le hf with hlt | heq
  · have h1 := roundHalfEven_le_floor_add_one x
    have h2 := floor_le_roundHalfEven y
    omega
  · unfold roundHalfEven
    rw [heq]
    split_ifs <;> first | omega | (exfalso; linarith)

theorem roundHalfEven_neg (x : ℚ) : roundHalfEven (-x) = -roundHalfEven x := by
  by_cases hint : x = (⌊x⌋ : ℚ)
  · rw [hint, ← Int.cast_neg, roundHalfEven_intCast, roundHalfEven_intCast]
  · have hfl : (⌊x⌋ : ℚ) ≤ x := Int.floor_le x
    have hfu : x < (⌊x⌋ : ℚ) + 1 := Int.lt_floor_add_one x
    have hlt : (⌊x⌋ : ℚ) < x := lt_of_le_of_ne hfl (fun e => hint e.symm)
    have hneg : ⌊-x⌋ = -⌊x⌋ - 1 := by
      rw [Int.floor_eq_iff]
      push_cast
      constructor <;> linarith
    unfold roundHalfEven
    rw [hneg]
    push_cast
    split_ifs <;> first | omega | (exfalso; linarith)

theorem abs_sub_roundHalfEven_le (x : ℚ) : |x - (roundHalfEven x : ℚ)| ≤ 1 / 2 := by
  have hfl : (⌊x⌋ : ℚ) ≤ x := Int.floor_le x
  have hfu : x < (⌊x⌋ : ℚ) + 1 := Int.lt_floor_add_one x
  rw [abs_le]
  unfold roundHalfEven
  split_ifs <;> push_cast <;> constructor <;> linarith
/-! ## Binades -/

theorem binade_ge (q : ℚ) : -1022 ≤ binade q :=
  le_max_right _ _

theorem log_le_binade (q : ℚ) : Int.log 2 |q| ≤ binade q :=
  le_max_left _ _

theorem ulp_pos (q : ℚ) : 0 < ulp q :=
  zpow_pos (by norm_num) _

theorem binade_neg (q : ℚ) : binade (-q) = binade q := by
  unfold binade
  rw [abs_neg]

theorem ulp_neg (q : ℚ) : ulp (-q) = ulp q := by
  unfold ulp
  rw [binade_neg]

theorem abs_lt_two_zpow_binade_succ (q : ℚ) : |q| < (2 : ℚ) ^ (binade q + 1) := by
  have h1 : |q| < ((2 : ℕ) : ℚ) ^ (Int.log 2 |q| + 1) := Int.lt_zpow_succ_log_self (by norm_num) _
  have h2 : ((2 : ℕ) : ℚ) ^ (Int.log 2 |q| + 1) ≤ (2 : ℚ) ^ (binade q + 1) := by
    push_cast
    apply zpow_le_zpow_right₀ (by norm_num)
    have := log_le_binade q
    omega
  exact lt_of_lt_of_le h1 h2

theorem two_zpow_binade_le {q : ℚ} (hq : q ≠ 0) (h : -1022 < binade q) :
    (2 : ℚ) ^ binade q ≤ |q| := by
  have hlog : binade q = Int.log 2 |q| := by
    unfold binade at h ⊢
    rcases le_total (Int.log 2 |q|) (-1022) with hle | hle
    · rw [max_eq_right hle] at h
      omega
    · exact max_eq_left hle
  rw [hlog]
  have h1 : ((2 : ℕ) : ℚ) ^ Int.log 2 |q| ≤ |q| :=
    Int.zpow_log_le_self (by norm_num) (abs_pos.mpr hq)
  simpa using h1

theorem binade_mono {x y : ℚ} (hx : x ≠ 0) (h : |x| ≤ |y|) : binade x ≤ binade y := by
  unfold binade
  apply max_le_max _ (le_refl _)
  exact Int.log_mono_right (abs_pos.mpr hx) h

/-! ## Rounding to the nearest `double` -/

theorem roundDouble_zero : roundDouble 0 = 0 := by
  unfold roundDouble
  have h : roundHalfEven (0 / ulp 0) = 0 := by
    rw [zero_div]
    exact roundHalfEven_intCast 0
  rw [h]
  simp

theorem roundDouble_neg (q : ℚ) : roundDouble (-q) = -roundDouble q := by
  unfold roundDouble
  rw [ulp_neg, neg_div, roundHalfEven_neg]
  push_cast
  ring

theorem roundDouble_nonneg {q : ℚ} (hq : 0 ≤ q) : 0 ≤ roundDouble q := by
  unfold roundDouble
  apply mul_nonneg _ (le_of_lt (ulp_pos q))
  have h1 : (0 : Int) ≤ ⌊q / ulp q⌋ := Int.floor_nonneg.mpr (div_nonneg hq (le_of_lt (ulp_pos q)))
  have h2 := floor_le_roundHalfEven (q / ulp q)
  exact_mod_cast le_trans h1 h2

theorem two_zpow_53 : ((2 : ℚ) ^ (53 : Int)) = (((2 ^ 53 : Int)) : ℚ) := by
  norm_num

theorem two_zpow_52 : ((2 : ℚ) ^ (52 : Int)) = (((2 ^ 52 : Int)) : ℚ) := by
  norm_num

/-- Every `double` is its own rounding. -/
theorem roundDouble_fix {q : ℚ} (hq : IsDouble q) : roundDouble q = q := by
  obtain ⟨m, k, hm, hk, rfl⟩ := hq
  by_cases hm0 : m = 0
  · subst hm0
    simp [roundDouble_zero]
  have h2 : (2 : ℚ) ≠ 0 := by norm_num
  have hqne : (m : ℚ) * (2 : ℚ) ^ k ≠ 0 :=
    mul_ne_zero (Int.cast_ne_zero.mpr hm0) (zpow_ne_zero _ h2)
  have hkey : binade ((m : ℚ) * (2 : ℚ) ^ k) - 52 ≤ k := by
    by_contra hlt
    rw [not_le] at hlt
    have hmq : |(m : ℚ)| < (2 : ℚ) ^ (53 : Int) := by
      rw [two_zpow_53, ← Int.cast_abs]
      exact_mod_cast hm
    have habs : |(m : ℚ) * (2 : ℚ) ^ k| < (2 : ℚ) ^ (53 + k) := by
      rw [abs_mul, abs_of_pos (zpow_pos (by norm_num : (0 : ℚ) < 2) k), zpow_add₀ h2]
      exact mul_lt_mul_of_pos_right hmq (zpow_pos (by norm_num) k)
    by_cases hb : -1022 < binade ((m : ℚ) * (2 : ℚ) ^ k)
    · have h1 := two_zpow_binade_le hqne hb
      have h3 : (2 : ℚ) ^ (53 + k) ≤ (2 : ℚ) ^ binade ((m : ℚ) * (2 : ℚ) ^ k) :=
        zpow_le_zpow_right₀ (by norm_num) (by omega)
      linarith
    · have := binade_ge ((m : ℚ) * (2 : ℚ) ^ k)
      omega
  obtain ⟨n, hn⟩ : ∃ n : Nat, k = binade ((m : ℚ) * (2 : ℚ) ^ k) - 52 + (n : Int) :=
    ⟨(k - (binade ((m : ℚ) * (2 : ℚ) ^ k) - 52)).toNat, by omega⟩
  unfold roundDouble ulp
  have hdiv : (m : ℚ) * (2 : ℚ) ^ k / (2 : ℚ) ^ (binade ((m : ℚ) * (2 : ℚ) ^ k) - 52) =
      (((m * 2 ^ n : Int)) : ℚ) := by
    rw [div_eq_iff (zpow_ne_zero _ h2)]
    conv_lhs => rw [hn]
    rw [zpow_add₀ h2, zpow_natCast]
    push_cast
    ring
  rw [hdiv, roundHalfEven_intCast]
  conv_rhs => rw [hn]
  rw [zpow_add₀ h2, zpow_natCast]
  push_cast
  ring

theorem roundDouble_le_two_zpow {x : ℚ} (hx : 0 ≤ x) :
    roundDouble x ≤ (2 : ℚ) ^ (binade x + 1) := by
  have h2 : (2 : ℚ) ≠ 0 := by norm_num
  have hu := ulp_pos x
  have hlt := abs_lt_two_zpow_binade_succ x
  rw [abs_of_nonneg hx] at hlt
  have hsplit : (2 : ℚ) ^ (binade x + 1) = (2 : ℚ) ^ (53 : Int) * ulp x := by
    unfold ulp
    rw [← zpow_add₀ h2]
    congr 1
    omega
  have hr : roundHalfEven (x / ulp x) ≤ (2 ^ 53 : Int) := by
    have hle : x / ulp x ≤ (((2 ^ 53 : Int)) : ℚ) := by
      rw [div_le_iff₀ hu, ← two_zpow_53, ← hsplit]
      exact le_of_lt hlt
    have := roundHalfEven_mono hle
    rwa [roundHalfEven_intCast] at this
  unfold roundDouble
  rw [hsplit, two_zpow_53]
  exact mul_le_mul_of_nonneg_right (by exact_mod_cast hr) (le_of_lt hu)

theorem two_zpow_le_roundDouble {y : ℚ} (hy : 0 < y) (hb : -1022 < binade y) :
    (2 : ℚ) ^ binade y ≤ roundDouble y := by
  have h2 : (2 : ℚ) ≠ 0 := by norm_num
  have hu := ulp_pos y
  have hle := two_zpow_binade_le (ne_of_gt hy) hb
  rw [abs_of_pos hy] at hle
  have hsplit : (2 : ℚ) ^ binade y = (2 : ℚ) ^ (52 : Int) * ulp y := by
    unfold ulp
    rw [← zpow_add₀ h2]
    congr 1
    omega
  have hr : (2 ^ 52 : Int) ≤ roundHalfEven (y / ulp y) := by
    have hge : (((2 ^ 52 : Int)) : ℚ) ≤ y / ulp y := by
      rw [le_div_iff₀ hu, ← two_zpow_52, ← hsplit]
      exact hle
    have := roundHalfEven_mono hge
    rwa [roundHalfEven_intCast] at this
  unfold roundDouble
  rw [hsplit, two_zpow_52]
  exact mul_le_mul_of_nonneg_right (by exact_mod_cast hr) (le_of_lt hu)

theorem roundDouble_mono_nonneg {x y : ℚ} (hx : 0 ≤ x) (h : x ≤ y) :
    roundDouble x ≤ roundDouble y := by
  rcases eq_or_lt_of_le hx with h0 | hpos
  · rw [← h0, roundDouble_zero]
    exact roundDouble_nonneg (le_trans hx h)
  have hy : 0 < y := lt_of_lt_of_le hpos h
  have hb : binade x ≤ binade y := by
    apply binade_mono (ne_of_gt hpos)
    rw [abs_of_pos hpos, abs_of_pos hy]
    exact h
  rcases eq_or_lt_of_le hb with heq | hlt
  · have hu : ulp x = ulp y := by
      unfold ulp
      rw [heq]
    unfold roundDouble
    rw [hu]
    apply mul_le_mul_of_nonneg_right _ (le_of_lt (ulp_pos y))
    have := roundHalfEven_mono (div_le_div_of_nonneg_right h (le_of_lt (ulp_pos y)))
    exact_mod_cast this
  · have h1 := roundDouble_le_two_zpow hx
    have h3 : (2 : ℚ) ^ (binade x + 1) ≤ (2 : ℚ) ^ binade y :=
      zpow_le_zpow_right₀ (by norm_num) (by omega)
    have h4 := two_zpow_le_roundDouble hy (by have := binade_ge x; omega)
    linarith

/-- Rounding to the nearest `double` keeps the order. -/
theorem roundDouble_mono {x y : ℚ} (h : x ≤ y) : roundDouble x ≤ roundDouble y := by
  rcases le_or_lt 0 x with hx | hx
  · exact roundDouble_mono_nonneg hx h
  · rcases le_or_lt 0 y with hy | hy
    · have h1 : 0 ≤ roundDouble (-x) := roundDouble_nonneg (by linarith)
      rw [roundDouble_neg] at h1
      have h2 := roundDouble_nonneg hy
      linarith
    · have h1 : roundDouble (-y) ≤ roundDouble (-x) :=
        roundDouble_mono_nonneg (by linarith) (by linarith)
      rw [roundDouble_neg, roundDouble_neg] at h1
      linarith

/-- A `double` below the exact result is below the rounded result. -/
theorem le_roundDouble {d q : ℚ} (hd : IsDouble d) (h : d ≤ q) : d ≤ roundDouble q := by
  have h1 := roundDouble_mono h
  rwa [roundDouble_fix hd] at h1

/-- A `double` above the exact result is above the rounded result. -/
theorem roundDouble_le {d q : ℚ} (hd : IsDouble d) (h : q ≤ d) : roundDouble q ≤ d := by
  have h1 := roundDouble_mono h
  rwa [roundDouble_fix hd] at h1

/-! ## Some `double` values -/

theorem isDouble_intCast {n : Int} (hn : |n| < 2 ^ 53) : IsDouble (n : ℚ) :=
  ⟨n, 0, hn, by omega, by simp⟩

theorem isDouble_natCast {n : Nat} (hn : n < 2 ^ 53) : IsDouble (n : ℚ) := by
  have h := isDouble_intCast (n := (n : Int)) (by rw [abs_of_nonneg (by omega)]; exact_mod_cast hn)
  simpa using h

theorem isDouble_neg {q : ℚ} (hq : IsDouble q) : IsDouble (-q) := by
  obtain ⟨m, k, hm, hk, rfl⟩ := hq
  refine ⟨-m, k, by rwa [abs_neg], hk, ?_⟩
  push_cast
  ring

theorem isDouble_div_two_pow {n : Int} (j : Nat) (hn : |n| < 2 ^ 53) (hj : j ≤ 1074) :
    IsDouble ((n : ℚ) / 2 ^ j) := by
  refine ⟨n, -(j : Int), hn, by omega, ?_⟩
  rw [zpow_neg, zpow_natCast]
  rfl

/-! ## The sampling loops in double arithmetic -/

/-- The buffer returned by `Fp.rotate_image_arbitrary` has `new_height` rows of `new_width`
pixels. -/
theorem Fp.wellFormed_rotate_image_arbitrary (image_data : Image) (width height : Nat)
    (c s : ℚ) :
    WellFormed (Fp.rotate_image_arbitrary image_data width height c s).1
      (Fp.new_width width height c s).toNat (Fp.new_height width height c s).toNat :=
  (sample_outer_loop
    (fun x y => 0 ≤ Fp.orig_x width height c s x y ∧
      Fp.orig_x width height c s x y < (width : Int) ∧
      0 ≤ Fp.orig_y width height c s x y ∧ Fp.orig_y width height c s x y < (height : Int))
    (fun x y => getPixel image_data (Fp.orig_y width height c s x y).toNat
      (Fp.orig_x width height c s x y).toNat)
    (Fp.new_height width height c s).toNat (Fp.new_width width height c s).toNat
    (Fp.new_height width height c s).toNat (Nat.le_refl _)).1

/-- Content of the buffer returned by `Fp.rotate_image_arbitrary` at destination column
`x`, row `y`. -/
theorem Fp.getPixel_rotate_image_arbitrary (image_data : Image) (width height : Nat)
    (c s : ℚ) (x y : Nat) (hx : x < (Fp.new_width width height c s).toNat)
    (hy : y < (Fp.new_height width height c s).toNat) :
    getPixel (Fp.rotate_image_arbitrary image_data width height c s).1 y x =
      if 0 ≤ Fp.orig_x width height c s x y ∧
          Fp.orig_x width height c s x y < (width : Int) ∧
          0 ≤ Fp.orig_y width height c s x y ∧
          Fp.orig_y width height c s x y < (height : Int) then
        getPixel image_data (Fp.orig_y width height c s x y).toNat
          (Fp.orig_x width height c s x y).toNat
      else zeroPixel := by
  have h := (sample_outer_loop
    (fun x y => 0 ≤ Fp.orig_x width height c s x y ∧
      Fp.orig_x width height c s x y < (width : Int) ∧
      0 ≤ Fp.orig_y width height c s x y ∧ Fp.orig_y width height c s x y < (height : Int))
    (fun x y => getPixel image_data (Fp.orig_y width height c s x y).toNat
      (Fp.orig_x width height c s x y).toNat)
    (Fp.new_height width height c s).toNat (Fp.new_width width height c s).toNat
    (Fp.new_height width height c s).toNat (Nat.le_refl _)).2 y x hy hx
  simpa [Fp.rotate_image_arbitrary, hy] using h

/-! ## Rounding next to an integer -/

theorem isDouble_int_add_half {n : Int} (hn : |n| < 2 ^ 51) : IsDouble ((n : ℚ) + 1 / 2) := by
  have h := isDouble_div_two_pow (n := 2 * n + 1) 1
    (by rw [abs_lt] at hn ⊢; omega) (by omega)
  have e : (((2 * n + 1 : Int)) : ℚ) / 2 ^ 1 = (n : ℚ) + 1 / 2 := by
    push_cast
    ring
  rwa [e] at h

theorem isDouble_int_sub_half {n : Int} (hn : |n| < 2 ^ 51) : IsDouble ((n : ℚ) - 1 / 2) := by
  have h := isDouble_div_two_pow (n := 2 * n - 1) 1
    (by rw [abs_lt] at hn ⊢; omega) (by omega)
  have e : (((2 * n - 1 : Int)) : ℚ) / 2 ^ 1 = (n : ℚ) - 1 / 2 := by
    push_cast
    ring
  rwa [e] at h

theorem isDouble_of_lt_two_pow_51 {n : Int} (hn : |n| < 2 ^ 51) : IsDouble (n : ℚ) :=
  isDouble_intCast (by rw [abs_lt] at hn ⊢; omega)

/-- A value at most one half above an integer stays there when rounded. -/
theorem round_above_int {n : Int} (hn : |n| < 2 ^ 51) {q : ℚ} (h1 : (n : ℚ) ≤ q)
    (h2 : q ≤ (n : ℚ) + 1 / 2) :
    (n : ℚ) ≤ roundDouble q ∧ roundDouble q ≤ (n : ℚ) + 1 / 2 :=
  ⟨le_roundDouble (isDouble_of_lt_two_pow_51 hn) h1,
    roundDouble_le (isDouble_int_add_half hn) h2⟩

/-- A value at most one half below an integer stays there when rounded. -/
theorem round_below_int {n : Int} (hn : |n| < 2 ^ 51) {q : ℚ} (h1 : (n : ℚ) - 1 / 2 ≤ q)
    (h2 : q ≤ (n : ℚ)) :
    (n : ℚ) - 1 / 2 ≤ roundDouble q ∧ roundDouble q ≤ (n : ℚ) :=
  ⟨le_roundDouble (isDouble_int_sub_half hn) h1,
    roundDouble_le (isDouble_of_lt_two_pow_51 hn) h2⟩

theorem round_small_nonneg {q : ℚ} (h1 : 0 ≤ q) (h2 : q ≤ 1 / 2) :
    0 ≤ roundDouble q ∧ roundDouble q ≤ 1 / 2 := by
  have h := round_above_int (n := 0) (by norm_num) (q := q) (by simpa using h1)
    (by simpa using h2)
  simpa using h

theorem round_small_nonpos {q : ℚ} (h1 : -(1 / 2) ≤ q) (h2 : q ≤ 0) :
    -(1 / 2) ≤ roundDouble q ∧ roundDouble q ≤ 0 := by
  have h := round_below_int (n := 0) (by norm_num) (q := q) (by simpa using h1)
    (by simpa using h2)
  simpa using h

theorem abs_round_small {q : ℚ} (h : |q| ≤ 1 / 2) : |roundDouble q| ≤ 1 / 2 := by
  rw [abs_le] at h ⊢
  rcases le_total 0 q with h0 | h0
  · have := round_small_nonneg h0 h.2
    constructor <;> linarith
  · have := round_small_nonpos h.1 h0
    constructor <;> linarith

theorem roundDouble_intCast {n : Int} (hn : |n| < 2 ^ 51) : roundDouble (n : ℚ) = n :=
  roundDouble_fix (isDouble_of_lt_two_pow_51 hn)

theorem roundDouble_natCast {n : Nat} (hn : n < 2 ^ 31) : roundDouble (n : ℚ) = n :=
  roundDouble_fix (isDouble_natCast (by omega))

theorem truncToInt_above_nat {n : Nat} {v : ℚ} (h1 : (n : ℚ) ≤ v) (h2 : v ≤ (n : ℚ) + 1 / 2) :
    truncToInt v = (n : Int) := by
  apply truncToInt_of_nonneg
  · exact le_trans (Nat.cast_nonneg n) h1
  · simpa using h1
  · push_cast
    linarith

/-- A tiny factor times an `int` stays within one half. -/
theorem abs_mul_small {c : ℚ} (hc : |c| ≤ 1 / 2 ^ 32) {k : ℚ} (hk : |k| ≤ 2 ^ 31) :
    |k * c| ≤ 1 / 2 := by
  rw [abs_mul]
  have h := mul_le_mul hk hc (abs_nonneg c) (by norm_num : (0 : ℚ) ≤ 2 ^ 31)
  have e : (2 : ℚ) ^ 31 * (1 / 2 ^ 32) = 1 / 2 := by norm_num
  linarith

/-! ## The bounding box at 90 degrees in double arithmetic -/

/-- With sine 1 and a cosine of magnitude at most `2 ^ (-32)` the first extent rounds to the
integer it would have with cosine 0. -/
theorem trunc_extent_small_first (a b : Nat) (ha : a < 2 ^ 31) (hb : b < 2 ^ 31) (c : ℚ)
    (hc : |c| ≤ 1 / 2 ^ 32) :
    truncToInt (roundDouble (|roundDouble ((a : ℚ) * c)| + |roundDouble ((b : ℚ) * 1)|)) =
      (b : Int) := by
  have eb : |(b : ℚ)| = (b : ℚ) := abs_of_nonneg (Nat.cast_nonneg b)
  rw [mul_one, roundDouble_natCast hb, eb]
  have hk : |(a : ℚ)| ≤ 2 ^ 31 := by
    rw [abs_of_nonneg (Nat.cast_nonneg a)]
    exact_mod_cast le_of_lt ha
  have hsmall := abs_round_small (abs_mul_small hc hk)
  have h0 := abs_nonneg (roundDouble ((a : ℚ) * c))
  have hbn : |((b : Int))| < 2 ^ 51 := by
    rw [abs_of_nonneg (by omega)]
    omega
  have h := round_above_int hbn (q := |roundDouble ((a : ℚ) * c)| + (b : ℚ))
    (by push_cast; linarith) (by push_cast; linarith)
  push_cast at h
  exact truncToInt_above_nat h.1 h.2

theorem trunc_extent_small_second (a b : Nat) (ha : a < 2 ^ 31) (hb : b < 2 ^ 31) (c : ℚ)
    (hc : |c| ≤ 1 / 2 ^ 32) :
    truncToInt (roundDouble (|roundDouble ((a : ℚ) * 1)| + |roundDouble ((b : ℚ) * c)|)) =
      (a : Int) := by
  have ea : |(a : ℚ)| = (a : ℚ) := abs_of_nonneg (Nat.cast_nonneg a)
  rw [mul_one, roundDouble_natCast ha, ea]
  have hk : |(b : ℚ)| ≤ 2 ^ 31 := by
    rw [abs_of_nonneg (Nat.cast_nonneg b)]
    exact_mod_cast le_of_lt hb
  have hsmall := abs_round_small (abs_mul_small hc hk)
  have h0 := abs_nonneg (roundDouble ((b : ℚ) * c))
  have han : |((a : Int))| < 2 ^ 51 := by
    rw [abs_of_nonneg (by omega)]
    omega
  have h := round_above_int han (q := (a : ℚ) + |roundDouble ((b : ℚ) * c)|)
    (by push_cast; linarith) (by push_cast; linarith)
  push_cast at h
  exact truncToInt_above_nat h.1 h.2

theorem Fp.new_width_ninety (W H : Nat) (hW : W < 2 ^ 31) (hH : H < 2 ^ 31) (c : ℚ)
    (hc : |c| ≤ 1 / 2 ^ 32) : Fp.new_width W H c 1 = (H : Int) :=
  trunc_extent_small_first W H hW hH c hc

theorem Fp.new_height_ninety (W H : Nat) (hW : W < 2 ^ 31) (hH : H < 2 ^ 31) (c : ℚ)
    (hc : |c| ≤ 1 / 2 ^ 32) : Fp.new_height W H c 1 = (W : Int) :=
  trunc_extent_small_second W H hW hH c hc

theorem abs_cos_ninety_le : |cos_ninety| ≤ 1 / 2 ^ 32 := by
  unfold cos_ninety
  rw [abs_of_nonneg (by norm_num)]
  norm_num

theorem Fp.zero_le_new_width (width height : Nat) (c s : ℚ) :
    0 ≤ Fp.new_width width height c s :=
  truncToInt_nonneg (roundDouble_nonneg (add_nonneg (abs_nonneg _) (abs_nonneg _)))

theorem Fp.zero_le_new_height (width height : Nat) (c s : ℚ) :
    0 ≤ Fp.new_height width height c s :=
  truncToInt_nonneg (roundDouble_nonneg (add_nonneg (abs_nonneg _) (abs_nonneg _)))

theorem isDouble_0_6 : IsDouble double_0_6 := by
  have h := isDouble_div_two_pow (n := 5404319552844595) 53 (by norm_num) (by norm_num)
  have e : ((5404319552844595 : Int) : ℚ) / 2 ^ 53 = double_0_6 := by
    unfold double_0_6
    norm_num
  rwa [e] at h

theorem isDouble_0_8 : IsDouble double_0_8 := by
  have h := isDouble_div_two_pow (n := 3602879701896397) 52 (by norm_num) (by norm_num)
  have e : ((3602879701896397 : Int) : ℚ) / 2 ^ 52 = double_0_8 := by
    unfold double_0_8
    norm_num
  rwa [e] at h

/-- A rounded value between two `double` values inside `[n, n + 1)` truncates to `n`. -/
theorem trunc_round_of_bounds {q : ℚ} (lo hi : ℚ) {n : Int} (hlo : IsDouble lo) (hhi : IsDouble hi)
    (h1 : lo ≤ q) (h2 : q ≤ hi) (h0 : 0 ≤ lo) (hn1 : (n : ℚ) ≤ lo) (hn2 : hi < (n : ℚ) + 1) :
    truncToInt (roundDouble q) = n := by
  have hl := le_roundDouble hlo h1
  have hh := roundDouble_le hhi h2
  apply truncToInt_of_nonneg <;> linarith

theorem isDouble_quarters {n : Int} (hn : |n| < 2 ^ 53) : IsDouble ((n : ℚ) / 4) := by
  have h := isDouble_div_two_pow (n := n) 2 hn (by norm_num)
  have e : (n : ℚ) / 2 ^ 2 = (n : ℚ) / 4 := by norm_num
  rwa [e] at h

theorem isDouble_eighths {n : Int} (hn : |n| < 2 ^ 53) : IsDouble ((n : ℚ) / 8) := by
  have h := isDouble_div_two_pow (n := n) 3 hn (by norm_num)
  have e : (n : ℚ) / 2 ^ 3 = (n : ℚ) / 8 := by norm_num
  rwa [e] at h

theorem isDouble_four_mul {q : ℚ} (hq : IsDouble q) : IsDouble (4 * q) := by
  obtain ⟨m, k, hm, hk, rfl⟩ := hq
  refine ⟨m, k + 2, hm, by omega, ?_⟩
  rw [zpow_add₀ (by norm_num : (2 : ℚ) ≠ 0)]
  norm_num
  ring

theorem double_sample_new_width : Fp.new_width 4 4 double_0_6 double_0_8 = 5 := by
  unfold Fp.new_width
  have e1 : ((4 : Nat) : ℚ) * double_0_6 = 4 * double_0_6 := by norm_num
  have e2 : ((4 : Nat) : ℚ) * double_0_8 = 4 * double_0_8 := by norm_num
  rw [e1, e2, roundDouble_fix (isDouble_four_mul isDouble_0_6),
    roundDouble_fix (isDouble_four_mul isDouble_0_8)]
  apply trunc_round_of_bounds (((22 : Int) : ℚ) / 4) (((23 : Int) : ℚ) / 4)
    (isDouble_quarters (by norm_num)) (isDouble_quarters (by norm_num)) <;>
    norm_num [double_0_6, double_0_8, abs_of_nonneg]

theorem double_sample_new_height : Fp.new_height 4 4 double_0_6 double_0_8 = 5 := by
  unfold Fp.new_height
  have e1 : ((4 : Nat) : ℚ) * double_0_6 = 4 * double_0_6 := by norm_num
  have e2 : ((4 : Nat) : ℚ) * double_0_8 = 4 * double_0_8 := by norm_num
  rw [e1, e2, roundDouble_fix (isDouble_four_mul isDouble_0_6),
    roundDouble_fix (isDouble_four_mul isDouble_0_8)]
  apply trunc_round_of_bounds (((22 : Int) : ℚ) / 4) (((23 : Int) : ℚ) / 4)
    (isDouble_quarters (by norm_num)) (isDouble_quarters (by norm_num)) <;>
    norm_num [double_0_6, double_0_8, abs_of_nonneg]

theorem double_sample_xt : Fp.xt 4 4 double_0_6 double_0_8 1 = -1 := by
  unfold Fp.xt Fp.new_cx
  rw [double_sample_new_width]
  decide

theorem double_sample_yt : Fp.yt 4 4 double_0_6 double_0_8 2 = 0 := by
  unfold Fp.yt Fp.new_cy
  rw [double_sample_new_height]
  decide

/-- The two rounded products and their rounded sum for the destination pixel in column 1,
row 2: `-0.6`. -/
theorem double_sample_inner_x :
    roundDouble (roundDouble (double_0_6 * ((Fp.xt 4 4 double_0_6 double_0_8 1 : Int) : ℚ))
      + roundDouble (double_0_8 * ((Fp.yt 4 4 double_0_6 double_0_8 2 : Int) : ℚ))) =
      -double_0_6 := by
  rw [double_sample_xt, double_sample_yt]
  have e1 : double_0_6 * (((-1 : Int)) : ℚ) = -double_0_6 := by norm_num
  have e2 : double_0_8 * (((0 : Int)) : ℚ) = 0 := by norm_num
  rw [e1, e2, roundDouble_zero, roundDouble_fix (isDouble_neg isDouble_0_6), add_zero,
    roundDouble_fix (isDouble_neg isDouble_0_6)]

theorem double_sample_inner_y :
    roundDouble (roundDouble (-double_0_8 * ((Fp.xt 4 4 double_0_6 double_0_8 1 : Int) : ℚ))
      + roundDouble (double_0_6 * ((Fp.yt 4 4 double_0_6 double_0_8 2 : Int) : ℚ))) =
      double_0_8 := by
  rw [double_sample_xt, double_sample_yt]
  have e1 : -double_0_8 * (((-1 : Int)) : ℚ) = double_0_8 := by norm_num
  have e2 : double_0_6 * (((0 : Int)) : ℚ) = 0 := by norm_num
  rw [e1, e2, roundDouble_zero, roundDouble_fix isDouble_0_8, add_zero,
    roundDouble_fix isDouble_0_8]

theorem double_sample_orig_x : Fp.orig_x 4 4 double_0_6 double_0_8 1 2 = 1 := by
  unfold Fp.orig_x
  rw [double_sample_inner_x, sample_cx]
  apply trunc_round_of_bounds (((5 : Int) : ℚ) / 4) (((6 : Int) : ℚ) / 4)
    (isDouble_quarters (by norm_num)) (isDouble_quarters (by norm_num)) <;>
    norm_num [double_0_6]

theorem double_sample_orig_y : Fp.orig_y 4 4 double_0_6 double_0_8 1 2 = 2 := by
  unfold Fp.orig_y
  rw [double_sample_inner_y, sample_cy]
  apply trunc_round_of_bounds (((11 : Int) : ℚ) / 4) (((23 : Int) : ℚ) / 8)
    (isDouble_quarters (by norm_num)) (isDouble_eighths (by norm_num)) <;>
    norm_num [double_0_8]

/-- The claimed column: the fractional part discarded before `cx` is added, in double
arithmetic and in exact arithmetic alike. -/
theorem double_sample_truncate_then_offset :
    truncToInt (roundDouble
        (roundDouble (double_0_6 * ((Fp.xt 4 4 double_0_6 double_0_8 1 : Int) : ℚ))
          + roundDouble (double_0_8 * ((Fp.yt 4 4 double_0_6 double_0_8 2 : Int) : ℚ))))
      + cx 4 = 2 ∧
    truncToInt (double_0_6 * ((Fp.xt 4 4 double_0_6 double_0_8 1 : Int) : ℚ)
        + double_0_8 * ((Fp.yt 4 4 double_0_6 double_0_8 2 : Int) : ℚ)) + cx 4 = 2 ∧
    truncToInt (roundDouble
        (roundDouble (-double_0_8 * ((Fp.xt 4 4 double_0_6 double_0_8 1 : Int) : ℚ))
          + roundDouble (double_0_6 * ((Fp.yt 4 4 double_0_6 double_0_8 2 : Int) : ℚ))))
      + cy 4 = 2 := by
  have h1 : truncToInt (-double_0_6) = 0 := by
    apply truncToInt_of_neg <;> unfold double_0_6 <;> norm_num
  have h2 : truncToInt double_0_8 = 0 := by
    apply truncToInt_of_nonneg <;> unfold double_0_8 <;> norm_num
  refine ⟨?_, ?_, ?_⟩
  · rw [double_sample_inner_x, h1, sample_cx]
    decide
  · rw [double_sample_xt, double_sample_yt, sample_cx]
    have e : double_0_6 * (((-1 : Int)) : ℚ) + double_0_8 * (((0 : Int)) : ℚ) =
        -double_0_6 := by norm_num
    rw [e, h1]
    decide
  · rw [double_sample_inner_y, h2, sample_cy]
    decide

/-- Output pixel of the sample rotation in destination column 1, row 2. -/
theorem double_sample_output_pixel :
    getPixel (Fp.rotate_image_arbitrary image4x4 4 4 double_0_6 double_0_8).1 2 1 =
      [2, 1, 9, 255] := by
  rw [Fp.getPixel_rotate_image_arbitrary image4x4 4 4 double_0_6 double_0_8 1 2
    (by rw [double_sample_new_width]; decide) (by rw [double_sample_new_height]; decide),
    double_sample_orig_x, double_sample_orig_y]
  decide

/-! ## A lower bound for the bounding box in double arithmetic -/

theorem abs_roundDouble (x : ℚ) : |roundDouble x| = roundDouble |x| := by
  rcases le_total 0 x with h | h
  · rw [abs_of_nonneg h, abs_of_nonneg (roundDouble_nonneg h)]
  · have h1 : 0 ≤ roundDouble (-x) := roundDouble_nonneg (by linarith)
    rw [abs_of_nonpos h]
    rw [roundDouble_neg] at h1 ⊢
    rw [abs_of_nonpos (by linarith)]

/-- An extent whose two factors are bounded below on the grid of multiples of `2 ^ (-20)`,
with bounds that add up to at least 1, is at least the smaller dimension. -/
theorem min_le_trunc_extent (a b : Nat) (ha : a < 2 ^ 31) (hb : b < 2 ^ 31) (p q : ℚ)
    (i j : Nat) (hi : i ≤ 2 ^ 20) (hj : j ≤ 2 ^ 20) (hij : 2 ^ 20 ≤ i + j)
    (hp : (i : ℚ) / 2 ^ 20 ≤ |p|) (hq : (j : ℚ) / 2 ^ 20 ≤ |q|) :
    ((min a b : Nat) : Int) ≤
      truncToInt (roundDouble (|roundDouble ((a : ℚ) * p)| + |roundDouble ((b : ℚ) * q)|)) := by
  have hai : a * i < 2 ^ 51 := by
    calc a * i ≤ a * 2 ^ 20 := Nat.mul_le_mul_left a hi
      _ < 2 ^ 31 * 2 ^ 20 := Nat.mul_lt_mul_of_pos_right ha (by norm_num)
      _ = 2 ^ 51 := by norm_num
  have hbj : b * j < 2 ^ 51 := by
    calc b * j ≤ b * 2 ^ 20 := Nat.mul_le_mul_left b hj
      _ < 2 ^ 31 * 2 ^ 20 := Nat.mul_lt_mul_of_pos_right hb (by norm_num)
      _ = 2 ^ 51 := by norm_num
  have hda : IsDouble ((((a * i : Nat) : Int) : ℚ) / 2 ^ 20) :=
    isDouble_div_two_pow 20 (by rw [abs_of_nonneg (by omega)]; omega) (by norm_num)
  have hdb : IsDouble ((((b * j : Nat) : Int) : ℚ) / 2 ^ 20) :=
    isDouble_div_two_pow 20 (by rw [abs_of_nonneg (by omega)]; omega) (by norm_num)
  have haq : (0 : ℚ) ≤ (a : ℚ) := Nat.cast_nonneg a
  have hbq : (0 : ℚ) ≤ (b : ℚ) := Nat.cast_nonneg b
  have h1 : (((a * i : Nat) : Int) : ℚ) / 2 ^ 20 ≤ |roundDouble ((a : ℚ) * p)| := by
    rw [abs_roundDouble, abs_mul, abs_of_nonneg haq]
    apply le_roundDouble hda
    have e : (((a * i : Nat) : Int) : ℚ) / 2 ^ 20 = (a : ℚ) * ((i : ℚ) / 2 ^ 20) := by
      push_cast
      ring
    rw [e]
    exact mul_le_mul_of_nonneg_left hp haq
  have h2 : (((b * j : Nat) : Int) : ℚ) / 2 ^ 20 ≤ |roundDouble ((b : ℚ) * q)| := by
    rw [abs_roundDouble, abs_mul, abs_of_nonneg hbq]
    apply le_roundDouble hdb
    have e : (((b * j : Nat) : Int) : ℚ) / 2 ^ 20 = (b : ℚ) * ((j : ℚ) / 2 ^ 20) := by
      push_cast
      ring
    rw [e]
    exact mul_le_mul_of_nonneg_left hq hbq
  have hm : min a b * 2 ^ 20 ≤ a * i + b * j := by
    calc min a b * 2 ^ 20 ≤ min a b * (i + j) := Nat.mul_le_mul_left _ hij
      _ = min a b * i + min a b * j := Nat.mul_add _ _ _
      _ ≤ a * i + b * j :=
        Nat.add_le_add (Nat.mul_le_mul_right i (Nat.min_le_left a b))
          (Nat.mul_le_mul_right j (Nat.min_le_right a b))
  have hmq : ((min a b : Nat) : ℚ) ≤
      (((a * i : Nat) : Int) : ℚ) / 2 ^ 20 + (((b * j : Nat) : Int) : ℚ) / 2 ^ 20 := by
    have h3 : ((min a b * 2 ^ 20 : Nat) : ℚ) ≤ ((a * i + b * j : Nat) : ℚ) := by
      exact_mod_cast hm
    push_cast at h3 ⊢
    rw [← add_div, le_div_iff₀ (by norm_num)]
    exact h3
  have hmin : min a b < 2 ^ 53 := by
    have := Nat.min_le_left a b
    omega
  have hsum : ((min a b : Nat) : ℚ) ≤
      |roundDouble ((a : ℚ) * p)| + |roundDouble ((b : ℚ) * q)| := by linarith
  apply truncToInt_ge (roundDouble_nonneg (add_nonneg (abs_nonneg _) (abs_nonneg _)))
  rw [Int.cast_natCast]
  exact le_roundDouble (isDouble_natCast hmin) hsum

/-! ## The `double` pairs on the unit circle -/

theorem sq_add_sq_eq_four_pow (n : Nat) : ∀ a b : Int, a ^ 2 + b ^ 2 = 4 ^ n → a = 0 ∨ b = 0 := by
  induction n with
  | zero =>
    intro a b h
    by_contra hne
    rw [not_or] at hne
    have ha : 0 < a ^ 2 := by
      have := hne.1
      positivity
    have hb : 0 < b ^ 2 := by
      have := hne.2
      positivity
    simp only [pow_zero] at h
    omega
  | succ n ih =>
    intro a b h
    have h4 : (4 : Int) ^ (n + 1) = 4 * 4 ^ n := by ring
    rw [h4] at h
    obtain ⟨a', ha | ha⟩ := Int.even_or_odd' a <;> obtain ⟨b', hb | hb⟩ := Int.even_or_odd' b
    · have e : a ^ 2 + b ^ 2 = 4 * (a' ^ 2 + b' ^ 2) := by
        rw [ha, hb]
        ring
      rw [e] at h
      have h' : a' ^ 2 + b' ^ 2 = 4 ^ n := by omega
      rcases ih a' b' h' with h0 | h0
      · left
        rw [ha, h0]
        rfl
      · right
        rw [hb, h0]
        rfl
    · exfalso
      have e : a ^ 2 + b ^ 2 = 4 * (a' ^ 2 + b' ^ 2 + b') + 1 := by
        rw [ha, hb]
        ring
      rw [e] at h
      omega
    · exfalso
      have e : a ^ 2 + b ^ 2 = 4 * (a' ^ 2 + b' ^ 2 + a') + 1 := by
        rw [ha, hb]
        ring
      rw [e] at h
      omega
    · exfalso
      have e : a ^ 2 + b ^ 2 = 4 * (a' ^ 2 + b' ^ 2 + a' + b') + 2 := by
        rw [ha, hb]
        ring
      rw [e] at h
      omega

/-- Two `double` values are fractions with a common power of two as denominator. -/
theorem exists_common_denominator {c s : ℚ} (hc : IsDouble c) (hs : IsDouble s) :
    ∃ (n : Nat) (a b : Int), c = (a : ℚ) / 2 ^ n ∧ s = (b : ℚ) / 2 ^ n := by
  obtain ⟨m1, k1, _, _, rfl⟩ := hc
  obtain ⟨m2, k2, _, _, rfl⟩ := hs
  have h2 : (2 : ℚ) ≠ 0 := by norm_num
  obtain ⟨n, e1, e2, h1, h2'⟩ : ∃ n e1 e2 : Nat, k1 = (e1 : Int) - (n : Int) ∧
      k2 = (e2 : Int) - (n : Int) :=
    ⟨(max (-k1) (-k2)).toNat, (k1 + (max (-k1) (-k2)).toNat).toNat,
      (k2 + (max (-k1) (-k2)).toNat).toNat, by omega, by omega⟩
  refine ⟨n, m1 * 2 ^ e1, m2 * 2 ^ e2, ?_, ?_⟩
  · rw [h1, zpow_sub₀ h2, zpow_natCast, zpow_natCast]
    push_cast
    ring
  · rw [h2', zpow_sub₀ h2, zpow_natCast, zpow_natCast]
    push_cast
    ring

/-- A pair of `double` values with `c * c + s * s = 1` lies on an axis. -/
theorem double_unit_circle {c s : ℚ} (hc : IsDouble c) (hs : IsDouble s)
    (hcs : c * c + s * s = 1) : (|c| = 1 ∧ s = 0) ∨ (c = 0 ∧ |s| = 1) := by
  obtain ⟨n, a, b, rfl, rfl⟩ := exists_common_denominator hc hs
  have hpow : (0 : ℚ) < 2 ^ n := by positivity
  have hq : ((a ^ 2 + b ^ 2 : Int) : ℚ) = ((4 ^ n : Int) : ℚ) := by
    have e4 : ((4 ^ n : Int) : ℚ) = (2 : ℚ) ^ n * 2 ^ n := by
      push_cast
      rw [← mul_pow]
      norm_num
    rw [e4]
    push_cast
    field_simp at hcs
    linarith
  have hz : a ^ 2 + b ^ 2 = 4 ^ n := by exact_mod_cast hq
  have habs : ∀ z : ℚ, z * z = 1 → |z| = 1 := by
    intro z hz1
    rcases mul_self_eq_one_iff.mp hz1 with h1 | h1 <;> rw [h1] <;> norm_num
  rcases sq_add_sq_eq_four_pow n a b hz with h0 | h0
  · right
    subst h0
    refine ⟨by simp, habs _ ?_⟩
    simpa using hcs
  · left
    subst h0
    refine ⟨habs _ ?_, by simp⟩
    simpa using hcs

theorem grid_of_unit_circle {c s : ℚ} (hc : IsDouble c) (hs : IsDouble s)
    (hcs : c * c + s * s = 1) :
    ∃ i j : Nat, i ≤ 2 ^ 20 ∧ j ≤ 2 ^ 20 ∧ 2 ^ 20 ≤ i + j ∧
      (i : ℚ) / 2 ^ 20 ≤ |c| ∧ (j : ℚ) / 2 ^ 20 ≤ |s| := by
  rcases double_unit_circle hc hs hcs with ⟨h1, h0⟩ | ⟨h0, h1⟩
  · refine ⟨2 ^ 20, 0, le_refl _, by norm_num, by norm_num, ?_, ?_⟩
    · rw [h1]
      norm_num
    · rw [h0]
      norm_num
  · refine ⟨0, 2 ^ 20, by norm_num, le_refl _, by norm_num, ?_, ?_⟩
    · rw [h0]
      norm_num
    · rw [h1]
      norm_num

/-- For a factor of magnitude 1 and a factor 0 the extent is the first dimension, in double
arithmetic and in exact arithmetic. -/
theorem extent_axis_first (a b : Nat) (ha : a < 2 ^ 31) (p q : ℚ) (hp : |p| = 1) (hq : q = 0) :
    truncToInt (roundDouble (|roundDouble ((a : ℚ) * p)| + |roundDouble ((b : ℚ) * q)|)) =
      (a : Int) ∧
    truncToInt (|(a : ℚ) * p| + |(b : ℚ) * q|) = (a : Int) := by
  have haq : |(a : ℚ)| = (a : ℚ) := abs_of_nonneg (Nat.cast_nonneg a)
  rw [abs_roundDouble, abs_roundDouble, abs_mul, abs_mul, hp, hq, haq]
  simp only [mul_one, abs_zero, mul_zero, roundDouble_zero, add_zero]
  rw [roundDouble_natCast ha, roundDouble_natCast ha]
  exact ⟨truncToInt_natCast a, truncToInt_natCast a⟩

theorem extent_axis_second (a b : Nat) (hb : b < 2 ^ 31) (p q : ℚ) (hp : p = 0) (hq : |q| = 1) :
    truncToInt (roundDouble (|roundDouble ((a : ℚ) * p)| + |roundDouble ((b : ℚ) * q)|)) =
      (b : Int) ∧
    truncToInt (|(a : ℚ) * p| + |(b : ℚ) * q|) = (b : Int) := by
  have hbq : |(b : ℚ)| = (b : ℚ) := abs_of_nonneg (Nat.cast_nonneg b)
  rw [abs_roundDouble, abs_roundDouble, abs_mul, abs_mul, hp, hq, hbq]
  simp only [mul_one, abs_zero, mul_zero, roundDouble_zero, zero_add]
  rw [roundDouble_natCast hb, roundDouble_natCast hb]
  exact ⟨truncToInt_natCast b, truncToInt_natCast b⟩

/-- For a `double` pair on the unit circle the dimensions computed in double arithmetic are
those of the exact formulas. -/
theorem Fp.new_dimensions_unit_circle (W H : Nat) (hW : W < 2 ^ 31) (hH : H < 2 ^ 31)
    {c s : ℚ} (hc : IsDouble c) (hs : IsDouble s) (hcs : c * c + s * s = 1) :
    Fp.new_width W H c s = truncToInt (|(W : ℚ) * c| + |(H : ℚ) * s|) ∧
    Fp.new_height W H c s = truncToInt (|(W : ℚ) * s| + |(H : ℚ) * c|) := by
  unfold Fp.new_width Fp.new_height
  rcases double_unit_circle hc hs hcs with ⟨h1, h0⟩ | ⟨h0, h1⟩
  · have hw := extent_axis_first W H hW c s h1 h0
    have hh := extent_axis_second W H hH s c h0 h1
    exact ⟨by rw [hw.1, hw.2], by rw [hh.1, hh.2]⟩
  · have hw := extent_axis_second W H hH c s h0 h1
    have hh := extent_axis_first W H hW s c h1 h0
    exact ⟨by rw [hw.1, hw.2], by rw [hh.1, hh.2]⟩

theorem isDouble_cos_110 : IsDouble cos_110 := by
  have h := isDouble_div_two_pow (n := -6161287160138741) 54 (by norm_num) (by norm_num)
  have e : ((-6161287160138741 : Int) : ℚ) / 2 ^ 54 = cos_110 := by
    unfold cos_110
    norm_num
  rwa [e] at h

theorem isDouble_sin_110 : IsDouble sin_110 := by
  have h := isDouble_div_two_pow (n := 2115999668407111) 51 (by norm_num) (by norm_num)
  have e : ((2115999668407111 : Int) : ℚ) / 2 ^ 51 = sin_110 := by
    unfold sin_110
    norm_num
  rwa [e] at h

theorem grid_cos_sin_110 :
    ∃ i j : Nat, i ≤ 2 ^ 20 ∧ j ≤ 2 ^ 20 ∧ 2 ^ 20 ≤ i + j ∧
      (i : ℚ) / 2 ^ 20 ≤ |cos_110| ∧ (j : ℚ) / 2 ^ 20 ≤ |sin_110| := by
  refine ⟨327680, 983040, by norm_num, by norm_num, by norm_num, ?_, ?_⟩
  · unfold cos_110
    rw [abs_neg, abs_of_nonneg (by norm_num)]
    norm_num
  · unfold sin_110
    rw [abs_of_nonneg (by norm_num)]
    norm_num

/-- A pair of magnitudes at most 1 whose sum is at least `1 + 2 ^ (-19)` has lower bounds
on the grid of multiples of `2 ^ (-20)` that add up to at least 1. -/
theorem grid_of_sum_ge {c s : ℚ} (hc : |c| ≤ 1) (hs : |s| ≤ 1)
    (h : 1 + 1 / 2 ^ 19 ≤ |c| + |s|) :
    ∃ i j : Nat, i ≤ 2 ^ 20 ∧ j ≤ 2 ^ 20 ∧ 2 ^ 20 ≤ i + j ∧
      (i : ℚ) / 2 ^ 20 ≤ |c| ∧ (j : ℚ) / 2 ^ 20 ≤ |s| := by
  have hc0 : (0 : ℚ) ≤ |c| * 2 ^ 20 := by positivity
  have hs0 : (0 : ℚ) ≤ |s| * 2 ^ 20 := by positivity
  have hi1 := Nat.floor_le hc0
  have hj1 := Nat.floor_le hs0
  have hi2 := Nat.lt_floor_add_one (|c| * 2 ^ 20)
  have hj2 := Nat.lt_floor_add_one (|s| * 2 ^ 20)
  refine ⟨⌊|c| * 2 ^ 20⌋₊, ⌊|s| * 2 ^ 20⌋₊, ?_, ?_, ?_, ?_, ?_⟩
  · apply Nat.floor_le_of_le
    push_cast
    linarith
  · apply Nat.floor_le_of_le
    push_cast
    linarith
  · have h3 : ((2 ^ 20 : Nat) : ℚ) < ((⌊|c| * 2 ^ 20⌋₊ + ⌊|s| * 2 ^ 20⌋₊ + 1 : Nat) : ℚ) := by
      push_cast
      have h4 : (2 : ℚ) ^ 20 + 2 ≤ |c| * 2 ^ 20 + |s| * 2 ^ 20 := by
        have h5 := mul_le_mul_of_nonneg_right h (by norm_num : (0 : ℚ) ≤ 2 ^ 20)
        norm_num at h5 ⊢
        linarith
      linarith
    have h6 := Nat.cast_lt.mp h3
    omega
  · rw [div_le_iff₀ (by norm_num)]
    exact hi1
  · rw [div_le_iff₀ (by norm_num)]
    exact hj1

/-! ## Claim about the size of the rotated buffer -/

/-- C14: for `int` source dimensions `W ≥ 1` and `H ≥ 1` and every pair of `double` values
(cosine, sine) with `c * c + s * s = 1`, the dimensions computed by `rotate_image_arbitrary`
are `new_width = trunc (|W * c| + |H * s|)` and `new_height = trunc (|W * s| + |H * c|)` and
are both at least `min W H`, hence at least 1; they are the reported width and height, and
the returned buffer has `new_height` rows of `new_width` pixels, none of them empty. A pair
of `double` values with `c * c + s * s = 1` lies on an axis; the bounds also hold for every
pair of `double` values whose magnitudes have lower bounds on the grid of multiples of
`2 ^ (-20)` that add up to at least 1, as the pair computed for 110 degrees, and for every
pair with magnitudes at most 1 and `|c| + |s| ≥ 1 + 2 ^ (-19)`. -/
theorem double_rotation_nonempty (image_data : Image) (W H : Nat) (c s : ℚ)
    (hW1 : 1 ≤ W) (hH1 : 1 ≤ H) (hW : W < 2 ^ 31) (hH : H < 2 ^ 31)
    (hc : IsDouble c) (hs : IsDouble s)
    (hcs : c * c + s * s = 1 ∨
      (∃ i j : Nat, i ≤ 2 ^ 20 ∧ j ≤ 2 ^ 20 ∧ 2 ^ 20 ≤ i + j ∧
        (i : ℚ) / 2 ^ 20 ≤ |c| ∧ (j : ℚ) / 2 ^ 20 ≤ |s|) ∨
      (|c| ≤ 1 ∧ |s| ≤ 1 ∧ 1 + 1 / 2 ^ 19 ≤ |c| + |s|)) :
    (c * c + s * s = 1 →
      Fp.new_width W H c s = truncToInt (|(W : ℚ) * c| + |(H : ℚ) * s|) ∧
      Fp.new_height W H c s = truncToInt (|(W : ℚ) * s| + |(H : ℚ) * c|)) ∧
    ((min W H : Nat) : Int) ≤ Fp.new_width W H c s ∧
    ((min W H : Nat) : Int) ≤ Fp.new_height W H c s ∧
    1 ≤ Fp.new_width W H c s ∧ 1 ≤ Fp.new_height W H c s ∧
    (Fp.rotate_image_arbitrary image_data W H c s).2.1 = Fp.new_width W H c s ∧
    (Fp.rotate_image_arbitrary image_data W H c s).2.2 = Fp.new_height W H c s ∧
    ((Fp.rotate_image_arbitrary image_data W H c s).1.length : Int) =
      Fp.new_height W H c s ∧
    (∀ row ∈ (Fp.rotate_image_arbitrary image_data W H c s).1,
      (row.length : Int) = Fp.new_width W H c s) := by
  have hgrid : ∃ i j : Nat, i ≤ 2 ^ 20 ∧ j ≤ 2 ^ 20 ∧ 2 ^ 20 ≤ i + j ∧
      (i : ℚ) / 2 ^ 20 ≤ |c| ∧ (j : ℚ) / 2 ^ 20 ≤ |s| := by
    rcases hcs with h | h | h
    · exact grid_of_unit_circle hc hs h
    · exact h
    · exact grid_of_sum_ge h.1 h.2.1 h.2.2
  obtain ⟨i, j, hi, hj, hij, hci, hsj⟩ := hgrid
  have hw : ((min W H : Nat) : Int) ≤ Fp.new_width W H c s :=
    min_le_trunc_extent W H hW hH c s i j hi hj hij hci hsj
  have hh : ((min W H : Nat) : Int) ≤ Fp.new_height W H c s :=
    min_le_trunc_extent W H hW hH s c j i hj hi (by omega) hsj hci
  have hmin : 1 ≤ min W H := Nat.le_min.mpr ⟨hW1, hH1⟩
  obtain ⟨hlen, hrows⟩ := Fp.wellFormed_rotate_image_arbitrary image_data W H c s
  refine ⟨Fp.new_dimensions_unit_circle W H hW hH hc hs, hw, hh, by omega, by omega,
    rfl, rfl, ?_, ?_⟩
  · rw [hlen]
    omega
  · intro row hrow
    rw [hrows row hrow]
    omega

/-- C14 on the 4×2 sample with the `double` pair computed for 110 degrees, the angle of the
call in `process_image`, and with the pair (1, 0) on the unit circle. -/
theorem double_rotation_nonempty_witness :
    1 ≤ 4 ∧ 1 ≤ 2 ∧ 4 < 2 ^ 31 ∧ 2 < 2 ^ 31 ∧ IsDouble cos_110 ∧ IsDouble sin_110 ∧
    ((min 4 2 : Nat) : Int) ≤ Fp.new_width 4 2 cos_110 sin_110 ∧
    ((min 4 2 : Nat) : Int) ≤ Fp.new_height 4 2 cos_110 sin_110 ∧
    1 ≤ Fp.new_width 4 2 cos_110 sin_110 ∧ 1 ≤ Fp.new_height 4 2 cos_110 sin_110 ∧
    ((1 : ℚ) * 1 + 0 * 0 = 1) ∧
    (Fp.new_width 4 2 1 0 = truncToInt (|((4 : Nat) : ℚ) * 1| + |((2 : Nat) : ℚ) * 0|) ∧
      Fp.new_height 4 2 1 0 = truncToInt (|((4 : Nat) : ℚ) * 0| + |((2 : Nat) : ℚ) * 1|)) ∧
    ((min 4 2 : Nat) : Int) ≤ Fp.new_width 4 2 1 0 :=
  ⟨by norm_num, by norm_num, by norm_num, by norm_num, isDouble_cos_110, isDouble_sin_110,
    (double_rotation_nonempty image4x2 4 2 cos_110 sin_110 (by norm_num) (by norm_num)
      (by norm_num) (by norm_num) isDouble_cos_110 isDouble_sin_110
      (Or.inr (Or.inl grid_cos_sin_110))).2.1,
    (double_rotation_nonempty image4x2 4 2 cos_110 sin_110 (by norm_num) (by norm_num)
      (by norm_num) (by norm_num) isDouble_cos_110 isDouble_sin_110
      (Or.inr (Or.inl grid_cos_sin_110))).2.2.1,
    (double_rotation_nonempty image4x2 4 2 cos_110 sin_110 (by norm_num) (by norm_num)
      (by norm_num) (by norm_num) isDouble_cos_110 isDouble_sin_110
      (Or.inr (Or.inl grid_cos_sin_110))).2.2.2.1,
    (double_rotation_nonempty image4x2 4 2 cos_110 sin_110 (by norm_num) (by norm_num)
      (by norm_num) (by norm_num) isDouble_cos_110 isDouble_sin_110
      (Or.inr (Or.inl grid_cos_sin_110))).2.2.2.2.1,
    by norm_num,
    (double_rotation_nonempty image4x2 4 2 1 0 (by norm_num) (by norm_num)
      (by norm_num) (by norm_num) (isDouble_intCast (n := 1) (by norm_num))
      (isDouble_intCast (n := 0) (by norm_num)) (Or.inl (by norm_num))).1 (by norm_num),
    (double_rotation_nonempty image4x2 4 2 1 0 (by norm_num) (by norm_num)
      (by norm_num) (by norm_num) (isDouble_intCast (n := 1) (by norm_num))
      (isDouble_intCast (n := 0) (by norm_num)) (Or.inl (by norm_num))).2.1⟩

/-! ## The rotation by 0 degrees in double arithmetic -/

theorem Fp.new_width_at_zero (W H : Nat) (hW : W < 2 ^ 31) :
    Fp.new_width W H 1 0 = (W : Int) :=
  (extent_axis_first W H hW 1 0 (by norm_num) rfl).1

theorem Fp.new_height_at_zero (W H : Nat) (hH : H < 2 ^ 31) :
    Fp.new_height W H 1 0 = (H : Int) :=
  (extent_axis_second W H hH 0 1 rfl (by norm_num)).1

theorem Fp.orig_x_at_zero (W H x y : Nat) (hW : W < 2 ^ 31) (hx : x < W) :
    Fp.orig_x W H 1 0 x y = (x : Int) := by
  unfold Fp.orig_x Fp.xt Fp.new_cx cx
  rw [Fp.new_width_at_zero W H hW, tdiv_two_natCast, one_mul, zero_mul, roundDouble_zero, add_zero,
    roundDouble_intCast (by rw [abs_lt]; omega),
    roundDouble_intCast (by rw [abs_lt]; omega)]
  have h : ((((x : Int) - ((W / 2 : Nat) : Int) : Int)) : ℚ) + ((((W / 2 : Nat) : Int) : Int) : ℚ)
      = (((x : Int) : Int) : ℚ) := by
    push_cast
    ring
  rw [h, roundDouble_intCast (by rw [abs_lt]; omega), truncToInt_intCast]

theorem Fp.orig_y_at_zero (W H x y : Nat) (hH : H < 2 ^ 31) (hy : y < H) :
    Fp.orig_y W H 1 0 x y = (y : Int) := by
  unfold Fp.orig_y Fp.yt Fp.new_cy cy
  rw [Fp.new_height_at_zero W H hH, tdiv_two_natCast, neg_zero, one_mul, zero_mul, roundDouble_zero, zero_add,
    roundDouble_intCast (by rw [abs_lt]; omega),
    roundDouble_intCast (by rw [abs_lt]; omega)]
  have h : ((((y : Int) - ((H / 2 : Nat) : Int) : Int)) : ℚ) + ((((H / 2 : Nat) : Int) : Int) : ℚ)
      = (((y : Int) : Int) : ℚ) := by
    push_cast
    ring
  rw [h, roundDouble_intCast (by rw [abs_lt]; omega), truncToInt_intCast]

/-- In double arithmetic at angle 0 (cosine 1, sine 0, both `double` values) every
destination pixel passes the bounds test and holds the source pixel of the same column and
row: every intermediate value is an integer below `2 ^ 31` and no operation rounds. -/
theorem Fp.angle_zero_pixel (image_data : Image) (W H : Nat) (hW : W < 2 ^ 31)
    (hH : H < 2 ^ 31) (x y : Nat) (hx : x < W) (hy : y < H) :
    (0 ≤ Fp.orig_x W H 1 0 x y ∧ Fp.orig_x W H 1 0 x y < (W : Int) ∧
      0 ≤ Fp.orig_y W H 1 0 x y ∧ Fp.orig_y W H 1 0 x y < (H : Int)) ∧
    getPixel (Fp.rotate_image_arbitrary image_data W H 1 0).1 y x = getPixel image_data y x := by
  have hw := Fp.new_width_at_zero W H hW
  have hh := Fp.new_height_at_zero W H hH
  have hox := Fp.orig_x_at_zero W H x y hW hx
  have hoy := Fp.orig_y_at_zero W H x y hH hy
  have hin : 0 ≤ Fp.orig_x W H 1 0 x y ∧ Fp.orig_x W H 1 0 x y < (W : Int) ∧
      0 ≤ Fp.orig_y W H 1 0 x y ∧ Fp.orig_y W H 1 0 x y < (H : Int) := by
    rw [hox, hoy]
    omega
  refine ⟨hin, ?_⟩
  rw [Fp.getPixel_rotate_image_arbitrary image_data W H 1 0 x y
    (by rw [hw]; omega) (by rw [hh]; omega), if_pos hin, hox, hoy]
  simp

/-- In double arithmetic the rotation by 0 degrees returns the source buffer. -/
theorem Fp.angle_zero_identity (image_data : Image) (W H : Nat)
    (hwf : WellFormed image_data W H) (hW : W < 2 ^ 31) (hH : H < 2 ^ 31) :
    (Fp.rotate_image_arbitrary image_data W H 1 0).1 = image_data := by
  have hout := Fp.wellFormed_rotate_image_arbitrary image_data W H 1 0
  rw [Fp.new_width_at_zero W H hW, Fp.new_height_at_zero W H hH] at hout
  simp only [Int.toNat_ofNat] at hout
  apply image_ext hout hwf
  intro r c hr hc
  exact (Fp.angle_zero_pixel image_data W H hW hH c r hc hr).2

/-! ## The rotation by 110 degrees on the 4×4 sample -/

theorem call_sample_new_width : Fp.new_width 4 4 cos_110 sin_110 = 5 := by
  unfold Fp.new_width
  have e1 : ((4 : Nat) : ℚ) * cos_110 = 4 * cos_110 := by norm_num
  have e2 : ((4 : Nat) : ℚ) * sin_110 = 4 * sin_110 := by norm_num
  rw [e1, e2, roundDouble_fix (isDouble_four_mul isDouble_cos_110),
    roundDouble_fix (isDouble_four_mul isDouble_sin_110)]
  apply trunc_round_of_bounds (((20 : Int) : ℚ) / 4) (((22 : Int) : ℚ) / 4)
    (isDouble_quarters (by norm_num)) (isDouble_quarters (by norm_num)) <;>
    norm_num [cos_110, sin_110, abs_of_nonneg, abs_of_nonpos]

theorem call_sample_new_height : Fp.new_height 4 4 cos_110 sin_110 = 5 := by
  unfold Fp.new_height
  have e1 : ((4 : Nat) : ℚ) * cos_110 = 4 * cos_110 := by norm_num
  have e2 : ((4 : Nat) : ℚ) * sin_110 = 4 * sin_110 := by norm_num
  rw [e1, e2, roundDouble_fix (isDouble_four_mul isDouble_cos_110),
    roundDouble_fix (isDouble_four_mul isDouble_sin_110)]
  apply trunc_round_of_bounds (((20 : Int) : ℚ) / 4) (((22 : Int) : ℚ) / 4)
    (isDouble_quarters (by norm_num)) (isDouble_quarters (by norm_num)) <;>
    norm_num [cos_110, sin_110, abs_of_nonneg, abs_of_nonpos]

theorem call_sample_xt : Fp.xt 4 4 cos_110 sin_110 3 = 1 := by
  unfold Fp.xt Fp.new_cx
  rw [call_sample_new_width]
  decide

theorem call_sample_yt : Fp.yt 4 4 cos_110 sin_110 2 = 0 := by
  unfold Fp.yt Fp.new_cy
  rw [call_sample_new_height]
  decide

/-- The two rounded products and their rounded sum for the destination pixel in column 3,
row 2: the cosine itself. -/
theorem call_sample_inner_x :
    roundDouble (roundDouble (cos_110 * ((Fp.xt 4 4 cos_110 sin_110 3 : Int) : ℚ))
      + roundDouble (sin_110 * ((Fp.yt 4 4 cos_110 sin_110 2 : Int) : ℚ))) = cos_110 := by
  rw [call_sample_xt, call_sample_yt]
  have e1 : cos_110 * (((1 : Int)) : ℚ) = cos_110 := by norm_num
  have e2 : sin_110 * (((0 : Int)) : ℚ) = 0 := by norm_num
  rw [e1, e2, roundDouble_zero, roundDouble_fix isDouble_cos_110, add_zero,
    roundDouble_fix isDouble_cos_110]

theorem call_sample_inner_y :
    roundDouble (roundDouble (-sin_110 * ((Fp.xt 4 4 cos_110 sin_110 3 : Int) : ℚ))
      + roundDouble (cos_110 * ((Fp.yt 4 4 cos_110 sin_110 2 : Int) : ℚ))) = -sin_110 := by
  rw [call_sample_xt, call_sample_yt]
  have e1 : -sin_110 * (((1 : Int)) : ℚ) = -sin_110 := by norm_num
  have e2 : cos_110 * (((0 : Int)) : ℚ) = 0 := by norm_num
  rw [e1, e2, roundDouble_zero, roundDouble_fix (isDouble_neg isDouble_sin_110), add_zero,
    roundDouble_fix (isDouble_neg isDouble_sin_110)]

theorem call_sample_orig_x : Fp.orig_x 4 4 cos_110 sin_110 3 2 = 1 := by
  unfold Fp.orig_x
  rw [call_sample_inner_x, sample_cx]
  apply trunc_round_of_bounds (((6 : Int) : ℚ) / 4) (((7 : Int) : ℚ) / 4)
    (isDouble_quarters (by norm_num)) (isDouble_quarters (by norm_num)) <;>
    norm_num [cos_110]

theorem call_sample_orig_y : Fp.orig_y 4 4 cos_110 sin_110 3 2 = 1 := by
  unfold Fp.orig_y
  rw [call_sample_inner_y, sample_cy]
  apply trunc_round_of_bounds (((4 : Int) : ℚ) / 4) (((5 : Int) : ℚ) / 4)
    (isDouble_quarters (by norm_num)) (isDouble_quarters (by norm_num)) <;>
    norm_num [sin_110]

/-- Discarding the fractional part before the centre offset is added gives column 2 and
row 2 for the destination pixel in column 3, row 2. -/
theorem call_sample_truncate_then_offset :
    truncToInt (roundDouble
        (roundDouble (cos_110 * ((Fp.xt 4 4 cos_110 sin_110 3 : Int) : ℚ))
          + roundDouble (sin_110 * ((Fp.yt 4 4 cos_110 sin_110 2 : Int) : ℚ))))
      + cx 4 = 2 ∧
    truncToInt (roundDouble
        (roundDouble (-sin_110 * ((Fp.xt 4 4 cos_110 sin_110 3 : Int) : ℚ))
          + roundDouble (cos_110 * ((Fp.yt 4 4 cos_110 sin_110 2 : Int) : ℚ))))
      + cy 4 = 2 := by
  have h1 : truncToInt cos_110 = 0 := by
    apply truncToInt_of_neg <;> unfold cos_110 <;> norm_num
  have h2 : truncToInt (-sin_110) = 0 := by
    apply truncToInt_of_neg <;> unfold sin_110 <;> norm_num
  refine ⟨?_, ?_⟩
  · rw [call_sample_inner_x, h1, sample_cx]
    decide
  · rw [call_sample_inner_y, h2, sample_cy]
    decide

/-- Output pixel of the rotation by 110 degrees in destination column 3, row 2. -/
theorem call_sample_output_pixel :
    getPixel (Fp.rotate_image_arbitrary image4x4 4 4 cos_110 sin_110).1 2 3 =
      [1, 1, 9, 255] := by
  rw [Fp.getPixel_rotate_image_arbitrary image4x4 4 4 cos_110 sin_110 3 2
    (by rw [call_sample_new_width]; decide) (by rw [call_sample_new_height]; decide),
    call_sample_orig_x, call_sample_orig_y]
  decide

/-! ## Claims about the arbitrary-angle rotation in double arithmetic -/

/-- C6: at angle 0 (cosine 1, sine 0, both `double` values) `rotate_image_arbitrary` on a
well-formed source of width `W` and height `H` reports width `W` and height `H`, every
destination pixel passes the bounds test and is written with the source pixel of the same
column and row, and the returned buffer is the source buffer. The first four parts state
this for the formulas evaluated exactly, the last part for the double arithmetic of the
code with `W` and `H` in the range of `int`. -/
theorem rotate_image_arbitrary_angle_zero (image_data : Image) (W H : Nat)
    (hwf : WellFormed image_data W H) :
    (rotate_image_arbitrary image_data W H 1 0).2.1 = (W : Int) ∧
    (rotate_image_arbitrary image_data W H 1 0).2.2 = (H : Int) ∧
    (∀ x y, x < W → y < H →
      (0 ≤ orig_x W H 1 0 x y ∧ orig_x W H 1 0 x y < (W : Int) ∧
        0 ≤ orig_y W H 1 0 x y ∧ orig_y W H 1 0 x y < (H : Int)) ∧
      getPixel (rotate_image_arbitrary image_data W H 1 0).1 y x = getPixel image_data y x) ∧
    (rotate_image_arbitrary image_data W H 1 0).1 = image_data ∧
    (W < 2 ^ 31 → H < 2 ^ 31 →
      (Fp.rotate_image_arbitrary image_data W H 1 0).2.1 = (W : Int) ∧
      (Fp.rotate_image_arbitrary image_data W H 1 0).2.2 = (H : Int) ∧
      (∀ x y, x < W → y < H →
        (0 ≤ Fp.orig_x W H 1 0 x y ∧ Fp.orig_x W H 1 0 x y < (W : Int) ∧
          0 ≤ Fp.orig_y W H 1 0 x y ∧ Fp.orig_y W H 1 0 x y < (H : Int)) ∧
        getPixel (Fp.rotate_image_arbitrary image_data W H 1 0).1 y x =
          getPixel image_data y x) ∧
      (Fp.rotate_image_arbitrary image_data W H 1 0).1 = image_data) := by
  have hpx : ∀ x y, x < W → y < H →
      (0 ≤ orig_x W H 1 0 x y ∧ orig_x W H 1 0 x y < (W : Int) ∧
        0 ≤ orig_y W H 1 0 x y ∧ orig_y W H 1 0 x y < (H : Int)) ∧
      getPixel (rotate_image_arbitrary image_data W H 1 0).1 y x = getPixel image_data y x := by
    intro x y hx hy
    have hin : 0 ≤ orig_x W H 1 0 x y ∧ orig_x W H 1 0 x y < (W : Int) ∧
        0 ≤ orig_y W H 1 0 x y ∧ orig_y W H 1 0 x y < (H : Int) := by
      rw [orig_x_angle_zero, orig_y_angle_zero]
      omega
    refine ⟨hin, ?_⟩
    rw [rotate_image_arbitrary_getPixel image_data W H 1 0 x y
      (by rw [new_width_angle_zero]; omega) (by rw [new_height_angle_zero]; omega), if_pos hin,
      orig_x_angle_zero, orig_y_angle_zero]
    simp
  refine ⟨new_width_angle_zero W H, new_height_angle_zero W H, hpx, ?_, ?_⟩
  · have hout := rotate_image_arbitrary_wellFormed image_data W H 1 0
    rw [new_width_angle_zero, new_height_angle_zero] at hout
    simp only [Int.toNat_ofNat] at hout
    apply image_ext hout hwf
    intro r c hr hc
    exact (hpx c r hc hr).2
  · intro hW hH
    exact ⟨Fp.new_width_at_zero W H hW, Fp.new_height_at_zero W H hH,
      fun x y hx hy => Fp.angle_zero_pixel image_data W H hW hH x y hx hy,
      Fp.angle_zero_identity image_data W H hwf hW hH⟩

/-- C6 on the 4×2 sample, in exact and in double arithmetic. -/
theorem rotate_image_arbitrary_angle_zero_witness :
    WellFormed image4x2 4 2 ∧
    (rotate_image_arbitrary image4x2 4 2 1 0).2.1 = ((4 : Nat) : Int) ∧
    (rotate_image_arbitrary image4x2 4 2 1 0).2.2 = ((2 : Nat) : Int) ∧
    (rotate_image_arbitrary image4x2 4 2 1 0).1 = image4x2 ∧
    (Fp.rotate_image_arbitrary image4x2 4 2 1 0).2.1 = ((4 : Nat) : Int) ∧
    (Fp.rotate_image_arbitrary image4x2 4 2 1 0).2.2 = ((2 : Nat) : Int) ∧
    (Fp.rotate_image_arbitrary image4x2 4 2 1 0).1 = image4x2 :=
  ⟨by decide, (rotate_image_arbitrary_angle_zero image4x2 4 2 (by decide)).1,
    (rotate_image_arbitrary_angle_zero image4x2 4 2 (by decide)).2.1,
    (rotate_image_arbitrary_angle_zero image4x2 4 2 (by decide)).2.2.2.1,
    ((rotate_image_arbitrary_angle_zero image4x2 4 2 (by decide)).2.2.2.2
      (by norm_num) (by norm_num)).1,
    ((rotate_image_arbitrary_angle_zero image4x2 4 2 (by decide)).2.2.2.2
      (by norm_num) (by norm_num)).2.1,
    ((rotate_image_arbitrary_angle_zero image4x2 4 2 (by decide)).2.2.2.2
      (by norm_num) (by norm_num)).2.2.2⟩

/-- C7: for a well-formed source and every destination pixel in column `x`, row `y` of the
output of `rotate_image_arbitrary`: when the computed source coordinate satisfies
`0 ≤ orig_x < W` and `0 ≤ orig_y < H`, the destination pixel is the source pixel in column
`orig_x`, row `orig_y` (the whole pixel, all four channels); otherwise it is `(0,0,0,0)`.
The first part states this for the coordinate computed exactly, the second part for the
coordinate computed in the double arithmetic of the code. -/
theorem rotate_image_arbitrary_copy_or_zero (image_data : Image) (W H : Nat) (c s : ℚ)
    (hwf : WellFormed image_data W H) (x y : Nat) :
    ((x : Int) < new_width W H c s → (y : Int) < new_height W H c s →
      ((0 ≤ orig_x W H c s x y ∧ orig_x W H c s x y < (W : Int) ∧
          0 ≤ orig_y W H c s x y ∧ orig_y W H c s x y < (H : Int)) →
        getPixel (rotate_image_arbitrary image_data W H c s).1 y x =
          getPixel image_data (orig_y W H c s x y).toNat (orig_x W H c s x y).toNat) ∧
      (¬ (0 ≤ orig_x W H c s x y ∧ orig_x W H c s x y < (W : Int) ∧
          0 ≤ orig_y W H c s x y ∧ orig_y W H c s x y < (H : Int)) →
        getPixel (rotate_image_arbitrary image_data W H c s).1 y x = [0, 0, 0, 0])) ∧
    ((x : Int) < Fp.new_width W H c s → (y : Int) < Fp.new_height W H c s →
      ((0 ≤ Fp.orig_x W H c s x y ∧ Fp.orig_x W H c s x y < (W : Int) ∧
          0 ≤ Fp.orig_y W H c s x y ∧ Fp.orig_y W H c s x y < (H : Int)) →
        getPixel (Fp.rotate_image_arbitrary image_data W H c s).1 y x =
          getPixel image_data (Fp.orig_y W H c s x y).toNat (Fp.orig_x W H c s x y).toNat) ∧
      (¬ (0 ≤ Fp.orig_x W H c s x y ∧ Fp.orig_x W H c s x y < (W : Int) ∧
          0 ≤ Fp.orig_y W H c s x y ∧ Fp.orig_y W H c s x y < (H : Int)) →
        getPixel (Fp.rotate_image_arbitrary image_data W H c s).1 y x = [0, 0, 0, 0])) := by
  have _ := hwf
  constructor
  · intro hx hy
    have h := rotate_image_arbitrary_getPixel image_data W H c s x y (by omega) (by omega)
    constructor
    · intro hin
      rw [h, if_pos hin]
    · intro hout
      rw [h, if_neg hout]
      rfl
  · intro hx hy
    have h := Fp.getPixel_rotate_image_arbitrary image_data W H c s x y (by omega) (by omega)
    constructor
    · intro hin
      rw [h, if_pos hin]
    · intro hout
      rw [h, if_neg hout]
      rfl

/-- C7 on the 4×4 sample at destination column 1, row 2: with cosine 3/5 and sine 4/5 in
exact arithmetic, and with the doubles 0.6 and 0.8 in double arithmetic, where the
destination pixel is the source pixel of column 1, row 2. -/
theorem rotate_image_arbitrary_copy_or_zero_witness :
    WellFormed image4x4 4 4 ∧
    (((1 : Nat) : Int) < new_width 4 4 (3 / 5) (4 / 5)) ∧
    (((2 : Nat) : Int) < new_height 4 4 (3 / 5) (4 / 5)) ∧
    (((0 ≤ orig_x 4 4 (3 / 5) (4 / 5) 1 2 ∧ orig_x 4 4 (3 / 5) (4 / 5) 1 2 < ((4 : Nat) : Int) ∧
        0 ≤ orig_y 4 4 (3 / 5) (4 / 5) 1 2 ∧ orig_y 4 4 (3 / 5) (4 / 5) 1 2 < ((4 : Nat) : Int)) →
      getPixel (rotate_image_arbitrary image4x4 4 4 (3 / 5) (4 / 5)).1 2 1 =
        getPixel image4x4 (orig_y 4 4 (3 / 5) (4 / 5) 1 2).toNat
          (orig_x 4 4 (3 / 5) (4 / 5) 1 2).toNat) ∧
    (¬ (0 ≤ orig_x 4 4 (3 / 5) (4 / 5) 1 2 ∧ orig_x 4 4 (3 / 5) (4 / 5) 1 2 < ((4 : Nat) : Int) ∧
        0 ≤ orig_y 4 4 (3 / 5) (4 / 5) 1 2 ∧ orig_y 4 4 (3 / 5) (4 / 5) 1 2 < ((4 : Nat) : Int)) →
      getPixel (rotate_image_arbitrary image4x4 4 4 (3 / 5) (4 / 5)).1 2 1 = [0, 0, 0, 0])) ∧
    (((1 : Nat) : Int) < Fp.new_width 4 4 double_0_6 double_0_8) ∧
    (((2 : Nat) : Int) < Fp.new_height 4 4 double_0_6 double_0_8) ∧
    (0 ≤ Fp.orig_x 4 4 double_0_6 double_0_8 1 2 ∧
      Fp.orig_x 4 4 double_0_6 double_0_8 1 2 < ((4 : Nat) : Int) ∧
      0 ≤ Fp.orig_y 4 4 double_0_6 double_0_8 1 2 ∧
      Fp.orig_y 4 4 double_0_6 double_0_8 1 2 < ((4 : Nat) : Int)) ∧
    getPixel (Fp.rotate_image_arbitrary image4x4 4 4 double_0_6 double_0_8).1 2 1 =
      getPixel image4x4 (Fp.orig_y 4 4 double_0_6 double_0_8 1 2).toNat
        (Fp.orig_x 4 4 double_0_6 double_0_8 1 2).toNat :=
  have hw : ((1 : Nat) : Int) < Fp.new_width 4 4 double_0_6 double_0_8 := by
    rw [double_sample_new_width]; decide
  have hh : ((2 : Nat) : Int) < Fp.new_height 4 4 double_0_6 double_0_8 := by
    rw [double_sample_new_height]; decide
  have hin : 0 ≤ Fp.orig_x 4 4 double_0_6 double_0_8 1 2 ∧
      Fp.orig_x 4 4 double_0_6 double_0_8 1 2 < ((4 : Nat) : Int) ∧
      0 ≤ Fp.orig_y 4 4 double_0_6 double_0_8 1 2 ∧
      Fp.orig_y 4 4 double_0_6 double_0_8 1 2 < ((4 : Nat) : Int) := by
    rw [double_sample_orig_x, double_sample_orig_y]; decide
  ⟨by decide, by rw [sample_new_width]; decide, by rw [sample_new_height]; decide,
    (rotate_image_arbitrary_copy_or_zero image4x4 4 4 (3 / 5) (4 / 5) (by decide) 1 2).1
      (by rw [sample_new_width]; decide) (by rw [sample_new_height]; decide),
    hw, hh, hin,
    ((rotate_image_arbitrary_copy_or_zero image4x4 4 4 double_0_6 double_0_8
      (by decide) 1 2).2 hw hh).1 hin⟩

/-- C5, the claim as stated fails: on the 4×4 sample with the doubles 0.6 and 0.8 as cosine
and sine, for the destination pixel in column 1, row 2, the code computes `orig_x = 1`,
while discarding the fractional part before `cx` is added gives column 2, with rounded and
with exact products alike; the output pixel is the source pixel of column 1, row 2 and
differs from the source pixel at the claimed coordinate. The same on the 4×4 sample with
the pair computed for 110 degrees, the angle of the call in `process_image`: for the
destination pixel in column 3, row 2 the code computes `orig_x = 1` and `orig_y = 1`, the
claimed formulas give column 2 and row 2, and the output pixel is the source pixel of
column 1, row 1. -/
theorem double_truncate_before_offset_counterexample :
    IsDouble double_0_6 ∧ IsDouble double_0_8 ∧ WellFormed image4x4 4 4 ∧
    (1 : Int) < Fp.new_width 4 4 double_0_6 double_0_8 ∧
    (2 : Int) < Fp.new_height 4 4 double_0_6 double_0_8 ∧
    Fp.orig_x 4 4 double_0_6 double_0_8 1 2 = 1 ∧
    truncToInt (roundDouble
        (roundDouble (double_0_6 * ((Fp.xt 4 4 double_0_6 double_0_8 1 : Int) : ℚ))
          + roundDouble (double_0_8 * ((Fp.yt 4 4 double_0_6 double_0_8 2 : Int) : ℚ))))
      + cx 4 = 2 ∧
    truncToInt (double_0_6 * ((Fp.xt 4 4 double_0_6 double_0_8 1 : Int) : ℚ)
        + double_0_8 * ((Fp.yt 4 4 double_0_6 double_0_8 2 : Int) : ℚ)) + cx 4 = 2 ∧
    getPixel (Fp.rotate_image_arbitrary image4x4 4 4 double_0_6 double_0_8).1 2 1 =
      getPixel image4x4 2 1 ∧
    getPixel (Fp.rotate_image_arbitrary image4x4 4 4 double_0_6 double_0_8).1 2 1 ≠
      getPixel image4x4
        (truncToInt (roundDouble
            (roundDouble (-double_0_8 * ((Fp.xt 4 4 double_0_6 double_0_8 1 : Int) : ℚ))
              + roundDouble (double_0_6 * ((Fp.yt 4 4 double_0_6 double_0_8 2 : Int) : ℚ))))
          + cy 4).toNat
        (truncToInt (roundDouble
            (roundDouble (double_0_6 * ((Fp.xt 4 4 double_0_6 double_0_8 1 : Int) : ℚ))
              + roundDouble (double_0_8 * ((Fp.yt 4 4 double_0_6 double_0_8 2 : Int) : ℚ))))
          + cx 4).toNat ∧
    IsDouble cos_110 ∧ IsDouble sin_110 ∧
    (3 : Int) < Fp.new_width 4 4 cos_110 sin_110 ∧
    (2 : Int) < Fp.new_height 4 4 cos_110 sin_110 ∧
    Fp.orig_x 4 4 cos_110 sin_110 3 2 = 1 ∧
    Fp.orig_y 4 4 cos_110 sin_110 3 2 = 1 ∧
    truncToInt (roundDouble
        (roundDouble (cos_110 * ((Fp.xt 4 4 cos_110 sin_110 3 : Int) : ℚ))
          + roundDouble (sin_110 * ((Fp.yt 4 4 cos_110 sin_110 2 : Int) : ℚ))))
      + cx 4 = 2 ∧
    truncToInt (roundDouble
        (roundDouble (-sin_110 * ((Fp.xt 4 4 cos_110 sin_110 3 : Int) : ℚ))
          + roundDouble (cos_110 * ((Fp.yt 4 4 cos_110 sin_110 2 : Int) : ℚ))))
      + cy 4 = 2 ∧
    getPixel (Fp.rotate_image_arbitrary image4x4 4 4 cos_110 sin_110).1 2 3 =
      getPixel image4x4 1 1 ∧
    getPixel (Fp.rotate_image_arbitrary image4x4 4 4 cos_110 sin_110).1 2 3 ≠
      getPixel image4x4 2 2 := by
  refine ⟨isDouble_0_6, isDouble_0_8, by decide, by rw [double_sample_new_width]; decide,
    by rw [double_sample_new_height]; decide, double_sample_orig_x,
    double_sample_truncate_then_offset.1, double_sample_truncate_then_offset.2.1, ?_, ?_,
    isDouble_cos_110, isDouble_sin_110, by rw [call_sample_new_width]; decide,
    by rw [call_sample_new_height]; decide, call_sample_orig_x, call_sample_orig_y,
    call_sample_truncate_then_offset.1, call_sample_truncate_then_offset.2, ?_, ?_⟩
  · rw [double_sample_output_pixel]
    decide
  · rw [double_sample_output_pixel, double_sample_truncate_then_offset.1,
      double_sample_truncate_then_offset.2.2]
    decide
  · rw [call_sample_output_pixel]
    decide
  · rw [call_sample_output_pixel]
    decide

/-- C5 as amended: for a well-formed source and every destination pixel in column `x`, row
`y` of the output, with `xt = x - new_width / 2`, `yt = y - new_height / 2`, `cx = W / 2` and
`cy = H / 2`, the source coordinate that is sampled is
`orig_x = trunc (fl (fl (fl (c * xt) + fl (s * yt)) + cx))` and
`orig_y = trunc (fl (fl (fl (-s * xt) + fl (c * yt)) + cy))`, where `fl` rounds the exact
result of each `double` operation to the nearest `double`: the centre offset is added
first, and the rounded sum is then truncated toward zero. The destination pixel is the
source pixel at that coordinate when it lies inside the source. -/
theorem double_coordinate_truncates_after_offset (image_data : Image) (W H : Nat)
    (c s : ℚ) (hwf : WellFormed image_data W H) (x y : Nat)
    (hx : (x : Int) < Fp.new_width W H c s) (hy : (y : Int) < Fp.new_height W H c s) :
    Fp.orig_x W H c s x y =
      truncToInt (roundDouble (roundDouble
        (roundDouble (c * ((((x : Int) - Fp.new_width W H c s / 2 : Int)) : ℚ))
          + roundDouble (s * ((((y : Int) - Fp.new_height W H c s / 2 : Int)) : ℚ)))
        + (((W / 2 : Nat)) : ℚ))) ∧
    Fp.orig_y W H c s x y =
      truncToInt (roundDouble (roundDouble
        (roundDouble (-s * ((((x : Int) - Fp.new_width W H c s / 2 : Int)) : ℚ))
          + roundDouble (c * ((((y : Int) - Fp.new_height W H c s / 2 : Int)) : ℚ)))
        + (((H / 2 : Nat)) : ℚ))) ∧
    ((0 ≤ Fp.orig_x W H c s x y ∧ Fp.orig_x W H c s x y < (W : Int) ∧
        0 ≤ Fp.orig_y W H c s x y ∧ Fp.orig_y W H c s x y < (H : Int)) →
      getPixel (Fp.rotate_image_arbitrary image_data W H c s).1 y x =
        getPixel image_data (Fp.orig_y W H c s x y).toNat (Fp.orig_x W H c s x y).toNat) := by
  have _ := hwf
  have hw := Fp.zero_le_new_width W H c s
  have hh := Fp.zero_le_new_height W H c s
  have e1 : Int.tdiv (Fp.new_width W H c s) 2 = Fp.new_width W H c s / 2 :=
    Int.tdiv_eq_ediv hw (by omega)
  have e2 : Int.tdiv (Fp.new_height W H c s) 2 = Fp.new_height W H c s / 2 :=
    Int.tdiv_eq_ediv hh (by omega)
  refine ⟨?_, ?_, ?_⟩
  · unfold Fp.orig_x Fp.xt Fp.yt Fp.new_cx Fp.new_cy cx
    rw [e1, e2, tdiv_two_natCast, Int.cast_natCast]
  · unfold Fp.orig_y Fp.xt Fp.yt Fp.new_cx Fp.new_cy cy
    rw [e1, e2, tdiv_two_natCast, Int.cast_natCast]
  · intro hin
    rw [Fp.getPixel_rotate_image_arbitrary image_data W H c s x y (by omega) (by omega),
      if_pos hin]

/-- C5 as amended, on the 4×4 sample with the doubles 0.6 and 0.8 at destination column 1,
row 2: the sampled source pixel is in column 1, row 2. -/
theorem double_coordinate_truncates_after_offset_witness :
    WellFormed image4x4 4 4 ∧
    (((1 : Nat) : Int) < Fp.new_width 4 4 double_0_6 double_0_8) ∧
    (((2 : Nat) : Int) < Fp.new_height 4 4 double_0_6 double_0_8) ∧
    (0 ≤ Fp.orig_x 4 4 double_0_6 double_0_8 1 2 ∧
      Fp.orig_x 4 4 double_0_6 double_0_8 1 2 < ((4 : Nat) : Int) ∧
      0 ≤ Fp.orig_y 4 4 double_0_6 double_0_8 1 2 ∧
      Fp.orig_y 4 4 double_0_6 double_0_8 1 2 < ((4 : Nat) : Int)) ∧
    getPixel (Fp.rotate_image_arbitrary image4x4 4 4 double_0_6 double_0_8).1 2 1 =
      getPixel image4x4 (Fp.orig_y 4 4 double_0_6 double_0_8 1 2).toNat
        (Fp.orig_x 4 4 double_0_6 double_0_8 1 2).toNat :=
  ⟨by decide, by rw [double_sample_new_width]; decide,
    by rw [double_sample_new_height]; decide,
    by rw [double_sample_orig_x, double_sample_orig_y]; decide,
    (double_coordinate_truncates_after_offset image4x4 4 4 double_0_6 double_0_8 (by decide)
      1 2 (by rw [double_sample_new_width]; decide)
      (by rw [double_sample_new_height]; decide)).2.2
      (by rw [double_sample_orig_x, double_sample_orig_y]; decide)⟩

/-- C9: at 90 degrees, where `sin` returns exactly 1 and `cos` a `double` of magnitude at
most `2 ^ (-32)` (the value returned is `6.123e-17`; the ideal value 0 is included),
`rotate_image_arbitrary` reports the dimensions that `rotate_image` reports: width `H` and
height `W`, for all `int` dimensions, and returns `W` rows of `H` pixels. -/
theorem ninety_degrees_dimensions (image_data : Image) (W H : Nat)
    (hW : W < 2 ^ 31) (hH : H < 2 ^ 31) (c s : ℚ) (hc : |c| ≤ 1 / 2 ^ 32) (hs : s = 1) :
    (Fp.rotate_image_arbitrary image_data W H c s).2.1 = (H : Int) ∧
    (Fp.rotate_image_arbitrary image_data W H c s).2.2 = (W : Int) ∧
    (Fp.rotate_image_arbitrary image_data W H c s).2.1 =
      (((rotate_image image_data W H).2.1 : Nat) : Int) ∧
    (Fp.rotate_image_arbitrary image_data W H c s).2.2 =
      (((rotate_image image_data W H).2.2 : Nat) : Int) ∧
    WellFormed (Fp.rotate_image_arbitrary image_data W H c s).1 H W := by
  subst hs
  have hw := Fp.new_width_ninety W H hW hH c hc
  have hh := Fp.new_height_ninety W H hW hH c hc
  have hout := Fp.wellFormed_rotate_image_arbitrary image_data W H c 1
  rw [hw, hh] at hout
  simp only [Int.toNat_ofNat] at hout
  exact ⟨hw, hh, hw, hh, hout⟩

/-- C9 on the 4×2 sample with the values that `cos` and `sin` return at 90 degrees, and
with the ideal pair (0, 1). -/
theorem ninety_degrees_dimensions_witness :
    4 < 2 ^ 31 ∧ 2 < 2 ^ 31 ∧ |cos_ninety| ≤ 1 / 2 ^ 32 ∧ sin_ninety = 1 ∧
    (Fp.rotate_image_arbitrary image4x2 4 2 cos_ninety sin_ninety).2.1 = ((2 : Nat) : Int) ∧
    (Fp.rotate_image_arbitrary image4x2 4 2 cos_ninety sin_ninety).2.2 = ((4 : Nat) : Int) ∧
    (Fp.rotate_image_arbitrary image4x2 4 2 0 1).2.1 = ((2 : Nat) : Int) ∧
    (Fp.rotate_image_arbitrary image4x2 4 2 0 1).2.2 = ((4 : Nat) : Int) :=
  ⟨by norm_num, by norm_num, abs_cos_ninety_le, rfl,
    (ninety_degrees_dimensions image4x2 4 2 (by norm_num) (by norm_num) cos_ninety sin_ninety
      abs_cos_ninety_le rfl).1,
    (ninety_degrees_dimensions image4x2 4 2 (by norm_num) (by norm_num) cos_ninety sin_ninety
      abs_cos_ninety_le rfl).2.1,
    (ninety_degrees_dimensions image4x2 4 2 (by norm_num) (by norm_num) 0 1
      (by norm_num) rfl).1,
    (ninety_degrees_dimensions image4x2 4 2 (by norm_num) (by norm_num) 0 1
      (by norm_num) rfl).2.1⟩

end ImageRotation
